import Mathlib

/-!
# HTTP response parser (`parser.go`): shallow embedding

Strings are lists of characters. The reader of the combinator library is the
list of characters still to be read. A parser maps a reader to `none` (no
match) or to the node it built and the reader after the match; the
interpreter callbacks of the source are run afterwards, over the nodes, as
`Sentence.Evaluate` does. The integer terminal panics on a numeral that does
not fit an `int`, so the parsers that reach it, and `Parse`, end in a `Run`:
they return, or the program panics.
-/

namespace HttpParser

/-- A parser over the remaining input: the node and the reader after it. -/
abbrev Parser (α : Type) := List Char → Option (α × List Char)

/-- The way a call ends: it returns a value, or the program panics. -/
inductive Run (α : Type) where
  | returned (a : α)
  | panicked
  deriving DecidableEq, Repr

/-- A parser that may panic instead of returning its match or its failure. -/
abbrev PanicParser (α : Type) := List Char → Run (Option (α × List Char))

/-- A parser that never panics, as one that may. -/
def noPanic {α : Type} (p : Parser α) : PanicParser α :=
  fun r => Run.returned (p r)

/-! ## The record -/

/-- `ResponseData` of `parser.go`. `Headers` is the Go map, kept as an
association list without repeated keys. -/
structure ResponseData where
  ProtocolVersion : List Char
  StatusCode : Int
  StatusString : List Char
  OrderedHeaderKeys : List (List Char)
  Headers : List (List Char × List Char)
  Unparsed : List (List Char)
  deriving DecidableEq, Repr

/-- `NewResponseData`: every field at its zero value, `Headers` an empty map. -/
def NewResponseData : ResponseData :=
  { ProtocolVersion := [], StatusCode := 0, StatusString := [],
    OrderedHeaderKeys := [], Headers := [], Unparsed := [] }

/-- Go map read `m[k]`: the stored value, or the zero value `""`. -/
def mapGet (m : List (List Char × List Char)) (k : List Char) : List Char :=
  match m with
  | [] => []
  | (k', v) :: rest => if k' = k then v else mapGet rest k

/-- Go map write `m[k] = v`: overwrite the entry of `k`, or add one. -/
def mapSet (m : List (List Char × List Char)) (k v : List Char) :
    List (List Char × List Char) :=
  match m with
  | [] => [(k, v)]
  | (k', v') :: rest => if k' = k then (k, v) :: rest else (k', v') :: mapSet rest k v

/-! ## Rendering -/

/-- `%d` of `fmt.Sprintf` on an `int`. -/
def formatInt (n : Int) : List Char :=
  match n with
  | Int.ofNat m => Nat.toDigits 10 m
  | Int.negSucc m => '-' :: Nat.toDigits 10 (m + 1)

/-- `strings.Join(elems, sep)`: the first element, then every further
element behind a separator. -/
def Join (elems : List (List Char)) (sep : List Char) : List Char :=
  match elems with
  | [] => []
  | e :: rest => rest.foldl (fun b s => b ++ sep ++ s) e

/-- `ResponseData.ToHTTP`: the `payload` slice grows by `append`, then the join. -/
def ToHTTP (r : ResponseData) : List Char :=
  let payload0 : List (List Char) := []
  let payload1 :=
    if r.ProtocolVersion ≠ [] then
      payload0 ++ [r.ProtocolVersion ++ ' ' :: (formatInt r.StatusCode ++ ' ' :: r.StatusString)]
    else payload0
  let payload2 :=
    r.OrderedHeaderKeys.foldl
      (fun payload key => payload ++ [key ++ ':' :: ' ' :: mapGet r.Headers key]) payload1
  let payload3 := payload2 ++ r.Unparsed
  Join payload3 ['\n']

/-- The lines of the rendering as the specification lists them (section 4.5,
steps 1 to 3). -/
def specLines (r : ResponseData) : List (List Char) :=
  (if r.ProtocolVersion ≠ [] then
      [r.ProtocolVersion ++ ' ' :: (formatInt r.StatusCode ++ ' ' :: r.StatusString)]
    else []) ++
  r.OrderedHeaderKeys.map (fun k => k ++ ':' :: ' ' :: mapGet r.Headers k) ++
  r.Unparsed

/-- The rendering as the specification words it (section 4.5, step 4): the
lines with a single line terminator between them, none at the end. -/
def specToHTTP (r : ResponseData) : List Char :=
  List.intercalate ['\n'] (specLines r)

/-! ## The combinator library, as far as `parser.go` uses it -/

/-- Modelled from the spec: the reader's whitespace class. The library
(`text.Reader` of parsley) is imported by `parser.go` and is not among the
sources. `text.NewReader(b, "", true)` asks the reader to ignore whitespace;
the tests of the repository fix that a blank (`TestHeader`) and a line
terminator (`TestParse`) are skipped; the class of the library is blank,
tab, carriage return and line feed. -/
def isWhitespace (c : Char) : Bool :=
  c = ' ' || c = '\t' || c = '\n' || c = '\r'

/-- Modelled from the spec: `text.NewReader(b, "", true)` of the imported
library. The library replaces the Windows-style line endings by Unix-style
ones before anything is read: every `"\r\n"` becomes `"\n"`, that is, a
carriage return directly before a line feed is dropped (section 6 of the
spec does not say so). -/
def NewReader : List Char → List Char
  | [] => []
  | c :: rest =>
    if c = '\r' ∧ rest.head? = some '\n' then NewReader rest else c :: NewReader rest

/-- Whether a text holds a carriage return directly before a line feed. -/
def hasCRLF : List Char → Bool
  | [] => false
  | c :: rest => (c = '\r' && rest.head? = some '\n') || hasCRLF rest

/-- Modelled from the spec: the whitespace skip of the imported reader, run
before every terminal created with `includeWhitespaces = false` and before
the end-of-input test. -/
def readWhitespaces (r : List Char) : List Char :=
  r.dropWhile isWhitespace

/-- The negated character class `[^x]`. -/
def notChar (x : Char) (c : Char) : Bool := c != x

/-- The regular expressions that `parser.go` hands to `terminal.Regexp`. -/
inductive Pattern where
  /-- The expression `/([^ ]+)`. -/
  | protocolVersion
  /-- The expression `.*` (the dot does not match a line terminator). -/
  | anyChar
  /-- The expression `[^:]*`. -/
  | headerName
  /-- The expression of one line terminator. -/
  | newline
  /-- The expression `[^\n]*`. -/
  | content
  deriving DecidableEq, Repr

/-- Modelled from the spec: the leftmost, greedy match of a pattern anchored
at the reader's position, as the regular expressions of the imported library
match: the groups (group 0 the whole match) and the reader after it. -/
def matchPattern (p : Pattern) (r : List Char) : Option (List (List Char) × List Char) :=
  match p with
  | Pattern.protocolVersion =>
    match r with
    | '/' :: t =>
      let v := t.takeWhile (notChar ' ')
      if v = [] then none else some (['/' :: v, v], t.dropWhile (notChar ' '))
    | _ => none
  | Pattern.anyChar =>
    some ([r.takeWhile (notChar '\n')], r.dropWhile (notChar '\n'))
  | Pattern.headerName =>
    some ([r.takeWhile (notChar ':')], r.dropWhile (notChar ':'))
  | Pattern.newline =>
    match r with
    | '\n' :: t => some ([['\n']], t)
    | _ => none
  | Pattern.content =>
    some ([r.takeWhile (notChar '\n')], r.dropWhile (notChar '\n'))

/-- Modelled from the spec: `terminal.Regexp(desc, expr, includeWhitespaces,
groupIndex, token)` of the imported library: skip whitespace unless
`includeWhitespaces`, match, and give the group `groupIndex` as the node's
value. -/
def Regexp (p : Pattern) (includeWhitespaces : Bool) (groupIndex : Nat) : Parser (List Char) :=
  fun r =>
    let r1 := if includeWhitespaces then r else readWhitespaces r
    match matchPattern p r1 with
    | none => none
    | some (groups, rest) => some (groups.getD groupIndex [], rest)

/-- Modelled from the spec: `terminal.Word(word, token, value)` of the
imported library: skip whitespace and match the word. A word boundary behind
the word is not modelled: the next terminal of `parser.go` asks for `/`, so
the status line matches or fails alike with and without it. -/
def Word (word : List Char) : Parser Unit :=
  fun r =>
    let r1 := readWhitespaces r
    if word.isPrefixOf r1 then some ((), r1.drop word.length) else none

/-- Modelled from the spec: `terminal.Rune(char, token)` of the imported
library: skip whitespace and match the character. -/
def Rune (char : Char) : Parser Char :=
  fun r =>
    match readWhitespaces r with
    | c :: t => if c = char then some (char, t) else none
    | [] => none

/-- Whether a character is a decimal digit. -/
def isDigit (c : Char) : Bool := '0' ≤ c && c ≤ '9'

/-- Value of a run of decimal digits, most significant first. -/
def digitsValue (ds : List Char) : Nat :=
  ds.foldl (fun acc c => 10 * acc + (c.toNat - 48)) 0

/-- Largest value of a 64-bit `int`. -/
def maxInt : Nat := 2 ^ 63 - 1

/-- Whether a character is a hexadecimal digit. -/
def isHexDigit (c : Char) : Bool :=
  isDigit c || ('a' ≤ c && c ≤ 'f') || ('A' ≤ c && c ≤ 'F')

/-- Whether a character is an octal digit. -/
def isOctDigit (c : Char) : Bool := '0' ≤ c && c ≤ '7'

/-- Value of a digit in any base up to sixteen. -/
def hexDigitValue (c : Char) : Nat :=
  if isDigit c then c.toNat - 48
  else if 'a' ≤ c && c ≤ 'f' then c.toNat - 87
  else c.toNat - 55

/-- Value of a run of digits in the given base, most significant first. -/
def baseValue (base : Nat) (ds : List Char) : Nat :=
  ds.foldl (fun acc c => base * acc + hexDigitValue c) 0

/-- The unsigned part of the integer expression,
`[1-9][0-9]*|0[xX][0-9a-fA-F]+|0[0-7]*`, the first alternative that matches:
the value as `strconv.ParseInt` with base 0 reads it (decimal, or
hexadecimal behind `0x`, or octal behind `0`) and the reader after it. -/
def matchNumeral (r : List Char) : Option (Nat × List Char) :=
  match r with
  | [] => none
  | d :: t =>
    if '1' ≤ d && d ≤ '9' then
      some (digitsValue (d :: t.takeWhile isDigit), t.dropWhile isDigit)
    else if d = '0' then
      match t with
      | x :: u =>
        if (x = 'x' || x = 'X') && u.takeWhile isHexDigit ≠ [] then
          some (baseValue 16 (u.takeWhile isHexDigit), u.dropWhile isHexDigit)
        else
          some (baseValue 8 (t.takeWhile isOctDigit), t.dropWhile isOctDigit)
      | [] => some (0, [])
    else none

/-- Modelled from the spec: `terminal.Integer()` of the imported library
("an integer status code"): skip whitespace, then match
`[-+]?(?:[1-9][0-9]*|0[xX][0-9a-fA-F]+|0[0-7]*)` and convert the match with
`strconv.ParseInt` in base 0; no match is a failure of the terminal, a match
that does not fit the 64-bit `int` is a panic. -/
def Integer : PanicParser Int :=
  fun r =>
    let r1 := readWhitespaces r
    let negative : Bool :=
      match r1 with
      | '-' :: _ => true
      | _ => false
    let unsigned : List Char :=
      match r1 with
      | '-' :: t => t
      | '+' :: t => t
      | _ => r1
    match matchNumeral unsigned with
    | none => Run.returned none
    | some (v, rest) =>
      if negative then
        (if v ≤ maxInt + 1 then Run.returned (some (-(v : Int), rest)) else Run.panicked)
      else
        (if v ≤ maxInt then Run.returned (some ((v : Int), rest)) else Run.panicked)

/-- Modelled from the spec: `parser.End()` of the imported library, which
`parsley.NewSentence` puts after the root parser: the reader, whitespace
skipped, is at the end of the input. -/
def End : Parser Unit :=
  fun r => if readWhitespaces r = [] then some ((), []) else none

/-- Repetition with an explicit bound on the number of rounds. -/
def manyFuel {α : Type} (p : Parser α) : Nat → List Char → List α × List Char
  | 0, r => ([], r)
  | fuel + 1, r =>
    match p r with
    | none => ([], r)
    | some (a, r1) => ((a :: (manyFuel p fuel r1).1), (manyFuel p fuel r1).2)

/-- The rounds of `Many p` on a reader: one more round than the reader has
characters. -/
def manyRun {α : Type} (p : Parser α) (r : List Char) : List α × List Char :=
  manyFuel p (r.length + 1) r

/-- Modelled from the spec: `combinator.Many(builder, p)` of the imported
library: apply `p` as often as it matches (zero times is a match) and stop
before the input of the first failure. Every round of the parsers repeated in
`parser.go` reads a line terminator, so the rounds of `manyRun` are never
used up (`manyRun_some`, `manyRun_leftover`). -/
def Many {α : Type} (p : Parser α) : Parser (List α) :=
  fun r => some (manyRun p r)

/-- A parser that reads at least one character whenever it matches. -/
def Consuming {α : Type} (p : Parser α) : Prop :=
  ∀ r a r1, p r = some (a, r1) → r1.length < r.length

/-! ## The parsers of `parser.go` -/

/-- Children 1 to 3 of the `STATUS_LINE` node. -/
structure StatusLineNode where
  semver : List Char
  statusCodeRaw : Int
  statusStringRaw : List Char
  deriving DecidableEq, Repr

/-- `statusLineParser`: the sequence of its four terminals. -/
def statusLineParser : PanicParser StatusLineNode :=
  fun r =>
    match Word "HTTP".toList r with
    | none => Run.returned none
    | some (_, r1) =>
      match Regexp Pattern.protocolVersion false 1 r1 with
      | none => Run.returned none
      | some (semver, r2) =>
        match Integer r2 with
        | Run.panicked => Run.panicked
        | Run.returned none => Run.returned none
        | Run.returned (some (code, r3)) =>
          match Regexp Pattern.anyChar false 0 r3 with
          | none => Run.returned none
          | some (text, r4) => Run.returned (some (⟨semver, code, text⟩, r4))

/-- The interpreter of `STATUS_LINE`. -/
def statusLineInterpreter (n : StatusLineNode) (rd : ResponseData) : ResponseData :=
  { rd with
    ProtocolVersion := "HTTP/".toList ++ n.semver
    StatusCode := n.statusCodeRaw
    StatusString := n.statusStringRaw }

/-- `headerParser`: name, colon, value; its interpreter returns the pair. -/
def headerParser : Parser (List Char × List Char) :=
  fun r =>
    match Regexp Pattern.headerName false 0 r with
    | none => none
    | some (value0, r1) =>
      match Rune ':' r1 with
      | none => none
      | some (_, r2) =>
        match Regexp Pattern.anyChar false 0 r2 with
        | none => none
        | some (value2, r3) => some ((value0, value2), r3)

/-- The `LINE` sequence of `headersParser`: a header, then a line terminator. -/
def headerLine : Parser (List Char × List Char) :=
  fun r =>
    match headerParser r with
    | none => none
    | some (value0, r1) =>
      match Regexp Pattern.newline true 0 r1 with
      | none => none
      | some (_, r2) => some (value0, r2)

/-- `headersParser`: zero or more header lines. -/
def headersParser : Parser (List (List Char × List Char)) :=
  Many headerLine

/-- The interpreter of `HEADERS`: for each node in order, append the key and
write the map. -/
def headersInterpreter (nodes : List (List Char × List Char)) (rd : ResponseData) :
    ResponseData :=
  nodes.foldl
    (fun acc headerVals =>
      { acc with
        OrderedHeaderKeys := acc.OrderedHeaderKeys ++ [headerVals.1]
        Headers := mapSet acc.Headers headerVals.1 headerVals.2 })
    rd

/-- The `LINE` sequence of `linesParser`: content, then a line terminator. -/
def rawLine : Parser (List Char) :=
  fun r =>
    match Regexp Pattern.content true 0 r with
    | none => none
    | some (value0, r1) =>
      match Regexp Pattern.newline true 0 r1 with
      | none => none
      | some (_, r2) => some (value0, r2)

/-- `linesParser`: zero or more raw lines. -/
def linesParser : Parser (List (List Char)) :=
  Many rawLine

/-- The interpreter of `LINES` in `linesParser`: append every line. -/
def linesInterpreter (nodes : List (List Char)) (rd : ResponseData) : ResponseData :=
  nodes.foldl (fun acc val => { acc with Unparsed := acc.Unparsed ++ [val] }) rd

/-- The three children of the root node of `httpResponseParser`. -/
structure ResponseNode where
  status : StatusLineNode
  headers : List (List Char × List Char)
  lines : List (List Char)
  deriving DecidableEq, Repr

/-- `httpResponseParser`: status line, headers, lines. -/
def httpResponseParser : PanicParser ResponseNode :=
  fun r =>
    match statusLineParser r with
    | Run.panicked => Run.panicked
    | Run.returned none => Run.returned none
    | Run.returned (some (s, r1)) =>
      match headersParser r1 with
      | none => Run.returned none
      | some (hs, r2) =>
        match linesParser r2 with
        | none => Run.returned none
        | some (ls, r3) => Run.returned (some (⟨s, hs, ls⟩, r3))

/-- The interpreter of the root node: the value of every child, in order. -/
def httpResponseInterpreter (n : ResponseNode) (rd : ResponseData) : ResponseData :=
  linesInterpreter n.lines (headersInterpreter n.headers (statusLineInterpreter n.status rd))

/-- Modelled from the spec: `parsley.NewSentence(p)` and the parse phase of
`Sentence.Evaluate` of the imported library: `p`, then the end of the input.
Every terminal of `parser.go` has one match at most, so there is one parse
tree at most. The parsers are built without the record and the interpreters
of `parser.go` ask for the value of their children themselves
(`node.Value(ctx)`): they run from the root down over the finished tree, so
only on the node of a whole match. -/
def Sentence {α : Type} (p : PanicParser α) (r : List Char) : Run (Option α) :=
  match p r with
  | Run.panicked => Run.panicked
  | Run.returned none => Run.returned none
  | Run.returned (some (a, r1)) =>
    match End r1 with
    | none => Run.returned none
    | some _ => Run.returned (some a)

/-- The error value of the library; its position and message are not modelled. -/
inductive ReaderError where
  | mk
  deriving DecidableEq, Repr

/-- `Parse`: the record, and the error if there is one. -/
def Parse (b : List Char) : Run (ResponseData × Option ReaderError) :=
  let parsedData := NewResponseData
  match Sentence httpResponseParser (NewReader b) with
  | Run.panicked => Run.panicked
  | Run.returned none => Run.returned (parsedData, some ReaderError.mk)
  | Run.returned (some node) => Run.returned (httpResponseInterpreter node parsedData, none)

/-- The status-line recognizer run alone on a fresh record, as `TestStatusCode` does. -/
def evalStatusLine (b : List Char) : Run (ResponseData × Option ReaderError) :=
  match Sentence statusLineParser (NewReader b) with
  | Run.panicked => Run.panicked
  | Run.returned none => Run.returned (NewResponseData, some ReaderError.mk)
  | Run.returned (some node) => Run.returned (statusLineInterpreter node NewResponseData, none)

/-- The header-block recognizer run alone on a fresh record, as `TestHeaders` does. -/
def evalHeaders (b : List Char) : Run (ResponseData × Option ReaderError) :=
  match Sentence (noPanic headersParser) (NewReader b) with
  | Run.panicked => Run.panicked
  | Run.returned none => Run.returned (NewResponseData, some ReaderError.mk)
  | Run.returned (some nodes) => Run.returned (headersInterpreter nodes NewResponseData, none)

/-- The raw-line recognizer run alone on a fresh record, as `TestParseLines` does. -/
def evalLines (b : List Char) : Run (ResponseData × Option ReaderError) :=
  match Sentence (noPanic linesParser) (NewReader b) with
  | Run.panicked => Run.panicked
  | Run.returned none => Run.returned (NewResponseData, some ReaderError.mk)
  | Run.returned (some nodes) => Run.returned (linesInterpreter nodes NewResponseData, none)

/-- The single-header recognizer run alone, as `TestHeader` does: the pair
that the interpreter of `HEADER` returns. -/
def evalHeader (b : List Char) : Run (Option (List Char × List Char)) :=
  Sentence (noPanic headerParser) (NewReader b)

/-! ## Input shapes -/

/-- Lines, each followed by one line terminator. -/
def terminated : List (List Char) → List Char
  | [] => []
  | l :: ls => l ++ '\n' :: terminated ls

/-- Header lines `name:value`, each followed by one line terminator. -/
def headerLines : List (List Char × List Char) → List Char
  | [] => []
  | h :: hs => h.1 ++ ':' :: (h.2 ++ '\n' :: headerLines hs)

/-- A status line `HTTP/v n t`, the code in decimal, single blanks between. -/
def statusLineText (v : List Char) (n : Nat) (t : List Char) : List Char :=
  "HTTP/".toList ++ (v ++ ' ' :: (Nat.toDigits 10 n ++ ' ' :: t))

/-- Whether the first character of a string is whitespace. -/
def leadsWithWhitespace (s : List Char) : Bool :=
  match s with
  | c :: _ => isWhitespace c
  | [] => false

/-- The value of the last pair of `hs` with the key `k`; `""` without one. -/
def lastValue (k : List Char) (hs : List (List Char × List Char)) : List Char :=
  hs.foldl (fun acc h => if h.1 = k then h.2 else acc) []

/-- The header nodes of the lines `hs`: the value less its leading whitespace. -/
def headerNodes (hs : List (List Char × List Char)) : List (List Char × List Char) :=
  hs.map (fun h => (h.1, readWhitespaces h.2))

/-- The shape of a header line that the recognizer reads back:
a name without colon and without leading whitespace, a value without line
terminator that is not all whitespace. -/
def HeaderShape (h : List Char × List Char) : Prop :=
  (∀ y ∈ h.1, y ≠ ':') ∧ leadsWithWhitespace h.1 = false ∧
  (∀ y ∈ h.2, y ≠ '\n') ∧ readWhitespaces h.2 ≠ []

/-- The lines left to raw-line capture behind the header block: the line
terminator of the status line is read as an empty line when no header line
follows it. -/
def capturedLines (hs : List (List Char × List Char)) (ls : List (List Char)) :
    List (List Char) :=
  match hs with
  | [] => [] :: ls
  | _ :: _ => ls

/-- Header lines written `name: value`: a single blank behind the colon. -/
def spacedHeaders (hs : List (List Char × List Char)) : List (List Char × List Char) :=
  hs.map (fun h => (h.1, ' ' :: h.2))

/-- A whole response: the status line, the header lines `hs`, the lines `ls`,
every line followed by one line terminator. -/
def responseText (v : List Char) (n : Nat) (t : List Char)
    (hs : List (List Char × List Char)) (ls : List (List Char)) : List Char :=
  statusLineText v n t ++ '\n' :: (headerLines hs ++ terminated ls)

/-- The header lines `hs` with every value replaced by the last value of its key. -/
def lastValues (hs : List (List Char × List Char)) : List (List Char × List Char) :=
  hs.map (fun h => (h.1, lastValue h.1 hs))

/-- A text with the line ending `"\r\n"`: a carriage return is put before
every line feed. -/
def toCRLF : List Char → List Char
  | [] => []
  | c :: rest => if c = '\n' then '\r' :: '\n' :: toCRLF rest else c :: toCRLF rest

/-- Whether a text starts with a decimal digit. -/
def startsWithDigit (r : List Char) : Bool :=
  match r with
  | d :: _ => isDigit d
  | [] => false

/-- Whether a text starts like an integer numeral: an optional sign, then a
decimal digit. -/
def startsWithNumeral (r : List Char) : Bool :=
  match r with
  | '-' :: t => startsWithDigit t
  | '+' :: t => startsWithDigit t
  | _ => startsWithDigit r

/-- The relation between the key list and the map that every header write keeps. -/
def KeysAgree (ks : List (List Char)) (m : List (List Char × List Char)) : Prop :=
  (m.map Prod.fst).Nodup ∧ (∀ k, k ∈ ks ↔ k ∈ m.map Prod.fst) ∧
  m.length ≤ ks.length ∧ (m.length = ks.length ↔ ks.Nodup)


/-! # Lemmas -/

/-! ## Lists -/

theorem takeWhile_append_stop {p : Char → Bool} (a : List Char) (c : Char) (b : List Char)
    (ha : ∀ x ∈ a, p x = true) (hc : p c = false) :
    (a ++ c :: b).takeWhile p = a := by
  induction a with
  | nil => simp [List.takeWhile, hc]
  | cons x xs ih =>
    have hx : p x = true := ha x (List.mem_cons_self _ _)
    have hxs : ∀ y ∈ xs, p y = true := fun y hy => ha y (List.mem_cons_of_mem _ hy)
    simp [List.takeWhile, hx, ih hxs]

theorem dropWhile_append_stop {p : Char → Bool} (a : List Char) (c : Char) (b : List Char)
    (ha : ∀ x ∈ a, p x = true) (hc : p c = false) :
    (a ++ c :: b).dropWhile p = c :: b := by
  induction a with
  | nil => simp [List.dropWhile, hc]
  | cons x xs ih =>
    have hx : p x = true := ha x (List.mem_cons_self _ _)
    have hxs : ∀ y ∈ xs, p y = true := fun y hy => ha y (List.mem_cons_of_mem _ hy)
    simp [List.dropWhile, hx, ih hxs]

theorem takeWhile_all {p : Char → Bool} (a : List Char) (ha : ∀ x ∈ a, p x = true) :
    a.takeWhile p = a := by
  induction a with
  | nil => rfl
  | cons x xs ih =>
    have hx : p x = true := ha x (List.mem_cons_self _ _)
    have hxs : ∀ y ∈ xs, p y = true := fun y hy => ha y (List.mem_cons_of_mem _ hy)
    simp [List.takeWhile, hx, ih hxs]

theorem dropWhile_all {p : Char → Bool} (a : List Char) (ha : ∀ x ∈ a, p x = true) :
    a.dropWhile p = [] := by
  induction a with
  | nil => rfl
  | cons x xs ih =>
    have hx : p x = true := ha x (List.mem_cons_self _ _)
    have hxs : ∀ y ∈ xs, p y = true := fun y hy => ha y (List.mem_cons_of_mem _ hy)
    simp [List.dropWhile, hx, ih hxs]

theorem length_dropWhile_le (p : Char → Bool) (r : List Char) :
    (r.dropWhile p).length ≤ r.length := by
  induction r with
  | nil => simp
  | cons x xs ih =>
    by_cases hx : p x = true
    · simp [List.dropWhile, hx]; omega
    · simp [List.dropWhile, hx]

/-! ## Repetition -/

theorem manyFuel_stable {α : Type} (p : Parser α) (hp : Consuming p) :
    ∀ (f g : Nat) (r : List Char), r.length < f → r.length < g →
      manyFuel p f r = manyFuel p g r := by
  intro f
  induction f with
  | zero => intro g r hf; omega
  | succ f ih =>
    intro g r hf hg
    cases g with
    | zero => omega
    | succ g =>
      simp only [manyFuel]
      cases hpr : p r with
      | none => rfl
      | some x =>
        obtain ⟨a, r1⟩ := x
        have hlt := hp r a r1 hpr
        simp only
        rw [ih g r1 (by omega) (by omega)]

theorem manyRun_none {α : Type} (p : Parser α) (r : List Char) (h : p r = none) :
    manyRun p r = ([], r) := by
  simp [manyRun, manyFuel, h]

theorem manyRun_some {α : Type} (p : Parser α) (hp : Consuming p) (r : List Char)
    (a : α) (r1 : List Char) (h : p r = some (a, r1)) :
    manyRun p r = (a :: (manyRun p r1).1, (manyRun p r1).2) := by
  have hlt := hp r a r1 h
  have e : manyFuel p (r.length + 1) r =
      (a :: (manyFuel p r.length r1).1, (manyFuel p r.length r1).2) := by
    simp only [manyFuel, h]
  unfold manyRun
  rw [e, manyFuel_stable p hp r.length (r1.length + 1) r1 hlt (by omega)]

/-! ## The reader -/

theorem readWhitespaces_nil : readWhitespaces [] = [] := rfl

theorem readWhitespaces_ws (c : Char) (r : List Char) (h : isWhitespace c = true) :
    readWhitespaces (c :: r) = readWhitespaces r := by
  simp [readWhitespaces, List.dropWhile, h]

theorem readWhitespaces_non (c : Char) (r : List Char) (h : isWhitespace c = false) :
    readWhitespaces (c :: r) = c :: r := by
  simp [readWhitespaces, List.dropWhile, h]

theorem readWhitespaces_length (r : List Char) :
    (readWhitespaces r).length ≤ r.length :=
  length_dropWhile_le _ _

theorem readWhitespaces_idem (r : List Char) :
    readWhitespaces (readWhitespaces r) = readWhitespaces r := by
  induction r with
  | nil => rfl
  | cons c t ih =>
    by_cases h : isWhitespace c = true
    · rw [readWhitespaces_ws c t h, ih]
    · have h2 : isWhitespace c = false := by simpa using h
      rw [readWhitespaces_non c t h2, readWhitespaces_non c t h2]

theorem matchPattern_length (p : Pattern) (r : List Char) (g : List (List Char))
    (r1 : List Char) (h : matchPattern p r = some (g, r1)) : r1.length ≤ r.length := by
  cases p with
  | protocolVersion =>
    cases r with
    | nil => simp [matchPattern] at h
    | cons c t =>
      by_cases hc : c = '/'
      · subst hc
        simp only [matchPattern] at h
        split at h
        · simp at h
        · simp only [Option.some.injEq, Prod.mk.injEq] at h
          rw [← h.2]
          have := length_dropWhile_le (notChar ' ') t
          simp only [List.length_cons]
          omega
      · simp [matchPattern, hc] at h
  | anyChar =>
    simp only [matchPattern, Option.some.injEq, Prod.mk.injEq] at h
    rw [← h.2]; exact length_dropWhile_le _ _
  | headerName =>
    simp only [matchPattern, Option.some.injEq, Prod.mk.injEq] at h
    rw [← h.2]; exact length_dropWhile_le _ _
  | newline =>
    cases r with
    | nil => simp [matchPattern] at h
    | cons c t =>
      by_cases hc : c = '\n'
      · subst hc
        simp only [matchPattern, Option.some.injEq, Prod.mk.injEq] at h
        rw [← h.2]; simp
      · simp [matchPattern, hc] at h
  | content =>
    simp only [matchPattern, Option.some.injEq, Prod.mk.injEq] at h
    rw [← h.2]; exact length_dropWhile_le _ _

theorem Regexp_length (p : Pattern) (iw : Bool) (gi : Nat) (r : List Char) (v : List Char)
    (r1 : List Char) (h : Regexp p iw gi r = some (v, r1)) : r1.length ≤ r.length := by
  unfold Regexp at h
  simp only at h
  split at h
  · simp at h
  · rename_i groups rest hm
    simp only [Option.some.injEq, Prod.mk.injEq] at h
    have h1 := matchPattern_length p _ groups rest hm
    have h2 := readWhitespaces_length r
    rw [← h.2]
    cases iw <;> simp at h1 <;> omega

theorem newline_some (r : List Char) (v : List Char) (r1 : List Char)
    (h : Regexp Pattern.newline true 0 r = some (v, r1)) : r = '\n' :: r1 := by
  cases r with
  | nil => simp [Regexp, matchPattern] at h
  | cons c t =>
    by_cases hc : c = '\n'
    · subst hc
      simp [Regexp, matchPattern] at h
      rw [h.2]
    · simp [Regexp, matchPattern, hc] at h

theorem newline_cons (r : List Char) :
    Regexp Pattern.newline true 0 ('\n' :: r) = some (['\n'], r) := by
  simp [Regexp, matchPattern]

theorem newline_nil : Regexp Pattern.newline true 0 [] = none := by
  simp [Regexp, matchPattern]

/-! ## Raw lines -/

theorem rawLine_consuming : Consuming rawLine := by
  intro r a r1 h
  unfold rawLine at h
  split at h
  · simp at h
  · rename_i v0 ra h0
    split at h
    · simp at h
    · rename_i v1 rb h1
      simp only [Option.some.injEq, Prod.mk.injEq] at h
      have e := newline_some ra v1 rb h1
      have l0 := Regexp_length _ _ _ _ _ _ h0
      rw [e] at l0
      rw [← h.2]
      simp only [List.length_cons] at l0
      omega

theorem rawLine_nil : rawLine [] = none := by
  simp [rawLine, Regexp, matchPattern]

theorem rawLine_line (l rest : List Char) (hl : ∀ c ∈ l, c ≠ '\n') :
    rawLine (l ++ '\n' :: rest) = some (l, rest) := by
  have ht : (l ++ '\n' :: rest).takeWhile (notChar '\n') = l :=
    takeWhile_append_stop l '\n' rest (by simpa [notChar] using hl) (by simp [notChar])
  have hd : (l ++ '\n' :: rest).dropWhile (notChar '\n') = '\n' :: rest :=
    dropWhile_append_stop l '\n' rest (by simpa [notChar] using hl) (by simp [notChar])
  unfold rawLine Regexp
  simp only [matchPattern, if_true, ht, hd]
  rfl

theorem manyRun_rawLine_terminated (ls : List (List Char))
    (hls : ∀ l ∈ ls, ∀ c ∈ l, c ≠ '\n') :
    manyRun rawLine (terminated ls) = (ls, []) := by
  induction ls with
  | nil => exact manyRun_none _ _ rawLine_nil
  | cons l rest ih =>
    have h1 := rawLine_line l (terminated rest) (hls l (List.mem_cons_self _ _))
    have h2 := ih (fun m hm => hls m (List.mem_cons_of_mem _ hm))
    show manyRun rawLine (l ++ '\n' :: terminated rest) = _
    rw [manyRun_some rawLine rawLine_consuming _ l _ h1, h2]

/-! ## Decimal numerals -/

theorem digitChar_facts (k : Nat) (hk : k < 10) :
    isDigit (Nat.digitChar k) = true ∧ (Nat.digitChar k).toNat - 48 = k ∧
    (0 < k → ('1' ≤ Nat.digitChar k && Nat.digitChar k ≤ '9') = true) ∧
    (k = 0 → Nat.digitChar k = '0') := by
  interval_cases k <;> decide

theorem digitsValue_append (a : List Char) (c : Char) :
    digitsValue (a ++ [c]) = 10 * digitsValue a + (c.toNat - 48) := by
  simp [digitsValue, List.foldl_append]

theorem toDigitsCore_spec : ∀ (fuel n : Nat) (ds : List Char), n < fuel →
    ∃ d t, Nat.toDigitsCore 10 fuel n ds = (d :: t) ++ ds ∧
      (∀ c ∈ d :: t, isDigit c = true) ∧ digitsValue (d :: t) = n ∧
      (0 < n → ('1' ≤ d && d ≤ '9') = true) ∧ (n = 0 → d :: t = ['0']) := by
  intro fuel
  induction fuel with
  | zero => intro n ds h; omega
  | succ fuel ih =>
    intro n ds h
    have hf := digitChar_facts (n % 10) (Nat.mod_lt _ (by decide))
    by_cases hq : n / 10 = 0
    · have hn : n < 10 := by omega
      have hm : n % 10 = n := Nat.mod_eq_of_lt hn
      rw [hm] at hf
      refine ⟨Nat.digitChar n, [], ?_, ?_, ?_, hf.2.2.1, ?_⟩
      · simp [Nat.toDigitsCore, hq, hm]
      · intro c hc
        simp only [List.mem_singleton] at hc
        rw [hc]; exact hf.1
      · simp [digitsValue, hf.2.1]
      · intro h0; rw [hf.2.2.2 h0]
    · obtain ⟨d, t, he, hall, hval, hpos, _⟩ :=
        ih (n / 10) (Nat.digitChar (n % 10) :: ds) (by omega)
      refine ⟨d, t ++ [Nat.digitChar (n % 10)], ?_, ?_, ?_, ?_, ?_⟩
      · simp [Nat.toDigitsCore, hq, he]
      · intro c hc
        rw [← List.cons_append] at hc
        rcases List.mem_append.mp hc with h1 | h1
        · exact hall c h1
        · simp only [List.mem_singleton] at h1
          rw [h1]; exact hf.1
      · rw [← List.cons_append, digitsValue_append, hval, hf.2.1]
        omega
      · intro _; exact hpos (by omega)
      · intro h0; omega

theorem toDigits_spec (n : Nat) :
    ∃ d t, Nat.toDigits 10 n = d :: t ∧
      (∀ c ∈ d :: t, isDigit c = true) ∧ digitsValue (d :: t) = n ∧
      (0 < n → ('1' ≤ d && d ≤ '9') = true) ∧ (n = 0 → d :: t = ['0']) := by
  obtain ⟨d, t, he, h⟩ := toDigitsCore_spec (n + 1) n [] (by omega)
  exact ⟨d, t, by simpa [Nat.toDigits] using he, h⟩

theorem isDigit_not_whitespace (d : Char) (h : isDigit d = true) : isWhitespace d = false := by
  by_contra hw
  have hw2 : isWhitespace d = true := by simpa using hw
  simp only [isWhitespace, Bool.or_eq_true, decide_eq_true_eq] at hw2
  rcases hw2 with ((h1 | h1) | h1) | h1 <;> (subst h1; exact absurd h (by decide))

theorem matchNumeral_decimal (n : Nat) (x : List Char) :
    matchNumeral (Nat.toDigits 10 n ++ ' ' :: x) = some (n, ' ' :: x) := by
  obtain ⟨d, t, he, hall, hval, hpos, hzero⟩ := toDigits_spec n
  have ht : ∀ y ∈ t, isDigit y = true := fun y hy => hall y (List.mem_cons_of_mem _ hy)
  have htk : (t ++ ' ' :: x).takeWhile isDigit = t :=
    takeWhile_append_stop t ' ' x ht (by decide)
  have hdr : (t ++ ' ' :: x).dropWhile isDigit = ' ' :: x :=
    dropWhile_append_stop t ' ' x ht (by decide)
  rw [he]
  rcases Nat.eq_zero_or_pos n with h0 | h0
  · have hz := hzero h0
    simp only [List.cons.injEq] at hz
    obtain ⟨hz1, hz2⟩ := hz
    subst hz1; subst hz2; subst h0
    have e1 : (' ' :: x).takeWhile isOctDigit = [] := by
      simp [List.takeWhile, isOctDigit]
    have e2 : (' ' :: x).dropWhile isOctDigit = ' ' :: x := by
      simp [List.dropWhile, isOctDigit]
    simp [matchNumeral, e1, e2, baseValue]
  · have hp := hpos h0
    show matchNumeral (d :: (t ++ ' ' :: x)) = _
    simp only [matchNumeral, hp, if_true, htk, hdr, hval]

theorem Integer_numeral (n : Nat) (hn : n ≤ maxInt) (x : List Char) :
    Integer (' ' :: (Nat.toDigits 10 n ++ ' ' :: x)) =
      Run.returned (some ((n : Int), ' ' :: x)) := by
  obtain ⟨d, t, he, hall, _, _, _⟩ := toDigits_spec n
  have hd : isDigit d = true := hall d (List.mem_cons_self _ _)
  have hr : readWhitespaces (' ' :: (Nat.toDigits 10 n ++ ' ' :: x)) =
      d :: (t ++ ' ' :: x) := by
    rw [readWhitespaces_ws ' ' _ (by decide), he]
    exact readWhitespaces_non d _ (isDigit_not_whitespace d hd)
  have hm : d ≠ '-' := by intro e; subst e; exact absurd hd (by decide)
  have hq : d ≠ '+' := by intro e; subst e; exact absurd hd (by decide)
  have hneg : (match d :: (t ++ ' ' :: x) with
      | '-' :: _ => true
      | _ => false) = false := by
    split
    · rename_i heq; simp only [List.cons.injEq] at heq; exact absurd heq.1 hm
    · rfl
  have huns : (match d :: (t ++ ' ' :: x) with
      | '-' :: t => t
      | '+' :: t => t
      | _ => d :: (t ++ ' ' :: x)) = d :: (t ++ ' ' :: x) := by
    split
    · rename_i heq; simp only [List.cons.injEq] at heq; exact absurd heq.1 hm
    · rename_i heq; simp only [List.cons.injEq] at heq; exact absurd heq.1 hq
    · rfl
  have hnum := matchNumeral_decimal n x
  rw [he] at hnum
  unfold Integer
  simp only [hr, hneg, huns]
  have hnum2 : matchNumeral (d :: (t ++ ' ' :: x)) = some (n, ' ' :: x) := hnum
  rw [hnum2]
  simp [hn]

theorem readWhitespaces_clean (s : List Char) (h : leadsWithWhitespace s = false) :
    readWhitespaces s = s := by
  cases s with
  | nil => rfl
  | cons c t => exact readWhitespaces_non c t h

theorem readWhitespaces_append (v x : List Char) (h : readWhitespaces v ≠ []) :
    readWhitespaces (v ++ x) = readWhitespaces v ++ x := by
  induction v with
  | nil => exact absurd rfl h
  | cons c t ih =>
    by_cases hc : isWhitespace c = true
    · rw [readWhitespaces_ws c t hc] at h
      rw [List.cons_append, readWhitespaces_ws c _ hc, readWhitespaces_ws c t hc, ih h]
    · have hc2 : isWhitespace c = false := by simpa using hc
      rw [List.cons_append, readWhitespaces_non c _ hc2, readWhitespaces_non c t hc2]
      rfl

theorem mem_of_mem_readWhitespaces (v : List Char) (y : Char)
    (h : y ∈ readWhitespaces v) : y ∈ v :=
  (List.dropWhile_suffix isWhitespace).subset h

/-! ## The reader's text -/

theorem NewReader_of_noCRLF (b : List Char) (h : hasCRLF b = false) : NewReader b = b := by
  induction b with
  | nil => rfl
  | cons c t ih =>
    simp only [hasCRLF, Bool.or_eq_false_iff, Bool.and_eq_false_imp, decide_eq_true_eq,
      decide_eq_false_iff_not] at h
    have hc : ¬ (c = '\r' ∧ t.head? = some '\n') := fun hh => h.1 hh.1 hh.2
    simp only [NewReader, hc, if_false, ih h.2]

theorem NewReader_cons (c : Char) (r : List Char) :
    NewReader (c :: r) =
      if c = '\r' ∧ r.head? = some '\n' then NewReader r else c :: NewReader r := rfl

theorem NewReader_cons_of_ne (c : Char) (r : List Char) (hc : c ≠ '\r') :
    NewReader (c :: r) = c :: NewReader r := by
  simp [NewReader, hc]

theorem head_append_cons (t : List Char) (c : Char) (r : List Char) (hc : c ≠ '\n') :
    ((t ++ c :: r).head? = some '\n') ↔ (t.head? = some '\n') := by
  cases t with
  | nil => simp [hc]
  | cons d u => simp

theorem NewReader_append_cons (a : List Char) (c : Char) (r : List Char)
    (hc1 : c ≠ '\n') (hc2 : c ≠ '\r') :
    NewReader (a ++ c :: r) = NewReader a ++ c :: NewReader r := by
  induction a with
  | nil => exact NewReader_cons_of_ne c r hc2
  | cons d t ih =>
    by_cases h : d = '\r' ∧ t.head? = some '\n'
    · have h2 : d = '\r' ∧ (t ++ c :: r).head? = some '\n' :=
        ⟨h.1, (head_append_cons t c r hc1).mpr h.2⟩
      rw [List.cons_append, NewReader_cons, if_pos h2, NewReader_cons, if_pos h, ih]
    · have h2 : ¬ (d = '\r' ∧ (t ++ c :: r).head? = some '\n') :=
        fun hh => h ⟨hh.1, (head_append_cons t c r hc1).mp hh.2⟩
      rw [List.cons_append, NewReader_cons, if_neg h2, NewReader_cons, if_neg h, ih]
      rfl

theorem mem_NewReader (a : List Char) (c : Char) (h : c ∈ NewReader a) : c ∈ a := by
  induction a with
  | nil => simp [NewReader] at h
  | cons d t ih =>
    by_cases hd : d = '\r' ∧ t.head? = some '\n'
    · simp only [NewReader, hd, and_self, if_true] at h
      exact List.mem_cons_of_mem _ (ih h)
    · simp only [NewReader, hd, if_false, List.mem_cons] at h
      rcases h with e | e
      · rw [e]; exact List.mem_cons_self _ _
      · exact List.mem_cons_of_mem _ (ih e)

theorem NewReader_ne_nil (a : List Char) (h : a ≠ []) : NewReader a ≠ [] := by
  induction a with
  | nil => exact absurd rfl h
  | cons d t ih =>
    by_cases hd : d = '\r' ∧ t.head? = some '\n'
    · simp only [NewReader, hd, and_self, if_true]
      apply ih
      intro e
      rw [e] at hd
      simp at hd
    · simp [NewReader, hd]

theorem NewReader_terminated (x : List Char) :
    ∃ y, NewReader (x ++ ['\n']) = y ++ ['\n'] := by
  induction x with
  | nil => exact ⟨[], by simp [NewReader]⟩
  | cons d t ih =>
    obtain ⟨y, hy⟩ := ih
    by_cases hd : d = '\r' ∧ (t ++ ['\n']).head? = some '\n'
    · exact ⟨y, by rw [List.cons_append, NewReader_cons, if_pos hd, hy]⟩
    · exact ⟨d :: y, by rw [List.cons_append, NewReader_cons, if_neg hd, hy]; rfl⟩

theorem NewReader_digits (n : Nat) : NewReader (Nat.toDigits 10 n) = Nat.toDigits 10 n := by
  obtain ⟨d, t, he, hall, _⟩ := toDigits_spec n
  have hno : ∀ (l : List Char), (∀ c ∈ l, isDigit c = true) → NewReader l = l := by
    intro l
    induction l with
    | nil => intro _; rfl
    | cons c u ih =>
      intro hl
      have hc : c ≠ '\r' := by
        intro e
        have := hl c (List.mem_cons_self _ _)
        rw [e] at this
        exact absurd this (by decide)
      rw [NewReader_cons_of_ne c u hc, ih (fun y hy => hl y (List.mem_cons_of_mem _ hy))]
  rw [he]
  exact hno _ hall

/-! ## The status line -/

theorem http_toList : "HTTP".toList = ['H', 'T', 'T', 'P'] := rfl

theorem httpSlash_toList : "HTTP/".toList = ['H', 'T', 'T', 'P', '/'] := rfl

theorem Word_http (r : List Char) :
    Word "HTTP".toList ("HTTP/".toList ++ r) = some ((), '/' :: r) := by
  rw [http_toList, httpSlash_toList]
  have hr : readWhitespaces (['H', 'T', 'T', 'P', '/'] ++ r) = 'H' :: 'T' :: 'T' :: 'P' :: '/' :: r :=
    readWhitespaces_non 'H' _ (by decide)
  unfold Word
  simp only [hr]
  simp [List.isPrefixOf]

theorem version_match (v : List Char) (x : List Char) (hv : v ≠ [])
    (hsp : ∀ c ∈ v, c ≠ ' ') :
    Regexp Pattern.protocolVersion false 1 ('/' :: (v ++ ' ' :: x)) = some (v, ' ' :: x) := by
  have hr : readWhitespaces ('/' :: (v ++ ' ' :: x)) = '/' :: (v ++ ' ' :: x) :=
    readWhitespaces_non '/' _ (by decide)
  have htk : (v ++ ' ' :: x).takeWhile (notChar ' ') = v :=
    takeWhile_append_stop v ' ' x (by simpa [notChar] using hsp) (by simp [notChar])
  have hdr : (v ++ ' ' :: x).dropWhile (notChar ' ') = ' ' :: x :=
    dropWhile_append_stop v ' ' x (by simpa [notChar] using hsp) (by simp [notChar])
  unfold Regexp
  simp only [Bool.false_eq_true, if_false, hr, matchPattern, htk, hdr, hv]
  rfl

/-- The expression `.*` behind a whitespace skip reads the text `v` less its
leading whitespace, up to the end of the input or to a line terminator. -/
theorem anyChar_skip (v rest : List Char) (hnl : ∀ y ∈ v, y ≠ '\n')
    (hrest : rest = [] ∨ (readWhitespaces v ≠ [] ∧ ∃ r, rest = '\n' :: r)) :
    Regexp Pattern.anyChar false 0 (v ++ rest) = some (readWhitespaces v, rest) := by
  have hp : ∀ y ∈ readWhitespaces v, notChar '\n' y = true := by
    intro y hy
    have := hnl y (mem_of_mem_readWhitespaces v y hy)
    simpa [notChar] using this
  have hr : readWhitespaces (v ++ rest) = readWhitespaces v ++ rest := by
    rcases hrest with h | ⟨h, _⟩
    · subst h; simp
    · exact readWhitespaces_append v rest h
  have htk : (readWhitespaces v ++ rest).takeWhile (notChar '\n') = readWhitespaces v := by
    rcases hrest with h | ⟨_, r, h⟩
    · subst h; rw [List.append_nil]; exact takeWhile_all _ hp
    · subst h; exact takeWhile_append_stop _ '\n' r hp (by simp [notChar])
  have hdr : (readWhitespaces v ++ rest).dropWhile (notChar '\n') = rest := by
    rcases hrest with h | ⟨_, r, h⟩
    · subst h; rw [List.append_nil]; exact dropWhile_all _ hp
    · subst h; exact dropWhile_append_stop _ '\n' r hp (by simp [notChar])
  unfold Regexp
  simp only [Bool.false_eq_true, if_false, hr, matchPattern, htk, hdr]
  rfl

theorem statusLineParser_line (v : List Char) (n : Nat) (t rest : List Char)
    (hv : v ≠ []) (hsp : ∀ y ∈ v, y ≠ ' ') (hn : n ≤ maxInt)
    (hnl : ∀ y ∈ t, y ≠ '\n')
    (hrest : rest = [] ∨ (readWhitespaces t ≠ [] ∧ ∃ r, rest = '\n' :: r)) :
    statusLineParser
      ("HTTP/".toList ++ (v ++ ' ' :: (Nat.toDigits 10 n ++ ' ' :: (t ++ rest)))) =
      Run.returned (some (⟨v, (n : Int), readWhitespaces t⟩, rest)) := by
  have hnl2 : ∀ y ∈ ' ' :: t, y ≠ '\n' := by
    intro y hy
    rcases List.mem_cons.mp hy with h | h
    · rw [h]; decide
    · exact hnl y h
  have hw : readWhitespaces (' ' :: t) = readWhitespaces t := readWhitespaces_ws ' ' t (by decide)
  have ha := anyChar_skip (' ' :: t) rest hnl2 (by rw [hw]; exact hrest)
  rw [hw] at ha
  unfold statusLineParser
  rw [Word_http]
  simp only
  rw [version_match v _ hv hsp]
  simp only
  rw [Integer_numeral n hn]
  simp only
  rw [← List.cons_append, ha]

/-! ## Header lines -/

theorem headerParser_line (name value rest : List Char)
    (hcolon : ∀ y ∈ name, y ≠ ':') (hlead : leadsWithWhitespace name = false)
    (hnl : ∀ y ∈ value, y ≠ '\n')
    (hrest : rest = [] ∨ (readWhitespaces value ≠ [] ∧ ∃ r, rest = '\n' :: r)) :
    headerParser (name ++ ':' :: (value ++ rest)) = some ((name, readWhitespaces value), rest) := by
  have hl : leadsWithWhitespace (name ++ ':' :: (value ++ rest)) = false := by
    cases name with
    | nil => rfl
    | cons c t => exact hlead
  have hr : readWhitespaces (name ++ ':' :: (value ++ rest)) = name ++ ':' :: (value ++ rest) :=
    readWhitespaces_clean _ hl
  have htk : (name ++ ':' :: (value ++ rest)).takeWhile (notChar ':') = name :=
    takeWhile_append_stop name ':' _ (by simpa [notChar] using hcolon) (by simp [notChar])
  have hdr : (name ++ ':' :: (value ++ rest)).dropWhile (notChar ':') = ':' :: (value ++ rest) :=
    dropWhile_append_stop name ':' _ (by simpa [notChar] using hcolon) (by simp [notChar])
  have h1 : Regexp Pattern.headerName false 0 (name ++ ':' :: (value ++ rest)) =
      some (name, ':' :: (value ++ rest)) := by
    unfold Regexp
    simp only [Bool.false_eq_true, if_false, hr, matchPattern, htk, hdr]
    rfl
  have h2 : Rune ':' (':' :: (value ++ rest)) = some (':', value ++ rest) := by
    unfold Rune
    rw [readWhitespaces_non ':' _ (by decide)]
    simp
  unfold headerParser
  rw [h1]
  simp only
  rw [h2]
  simp only
  rw [anyChar_skip value rest hnl hrest]

theorem headerLine_line (name value rest : List Char)
    (hcolon : ∀ y ∈ name, y ≠ ':') (hlead : leadsWithWhitespace name = false)
    (hnl : ∀ y ∈ value, y ≠ '\n') (hvis : readWhitespaces value ≠ []) :
    headerLine (name ++ ':' :: (value ++ '\n' :: rest)) =
      some ((name, readWhitespaces value), rest) := by
  unfold headerLine
  rw [headerParser_line name value ('\n' :: rest) hcolon hlead hnl (Or.inr ⟨hvis, rest, rfl⟩)]
  simp only
  rw [newline_cons]


theorem Rune_length (ch : Char) (r : List Char) (a : Char) (r1 : List Char)
    (h : Rune ch r = some (a, r1)) : r1.length < r.length := by
  unfold Rune at h
  have hl := readWhitespaces_length r
  split at h
  · rename_i c t heq
    rw [heq] at hl
    split at h
    · simp only [Option.some.injEq, Prod.mk.injEq] at h
      rw [← h.2]
      simp only [List.length_cons] at hl
      omega
    · simp at h
  · simp at h

theorem headerLine_consuming : Consuming headerLine := by
  intro r a r1 h
  unfold headerLine at h
  split at h
  · simp at h
  · rename_i v0 ra h0
    split at h
    · simp at h
    · rename_i v1 rb h1
      simp only [Option.some.injEq, Prod.mk.injEq] at h
      have e := newline_some ra v1 rb h1
      unfold headerParser at h0
      split at h0
      · simp at h0
      · rename_i n0 rc hc
        split at h0
        · simp at h0
        · rename_i n1 rd hd
          split at h0
          · simp at h0
          · rename_i n2 re he
            simp only [Option.some.injEq, Prod.mk.injEq] at h0
            have l1 := Regexp_length _ _ _ _ _ _ hc
            have l2 := Rune_length _ _ _ _ hd
            have l3 := Regexp_length _ _ _ _ _ _ he
            rw [h0.2, e] at l3
            rw [← h.2]
            simp only [List.length_cons] at l3
            omega

theorem headerLine_ws (c : Char) (r : List Char) (h : isWhitespace c = true) :
    headerLine (c :: r) = headerLine r := by
  unfold headerLine headerParser Regexp
  simp only [Bool.false_eq_true, if_false, readWhitespaces_ws c r h]

theorem headerLine_noColon (r : List Char) (h : ∀ y ∈ r, y ≠ ':') : headerLine r = none := by
  have hp : ∀ y ∈ readWhitespaces r, notChar ':' y = true := by
    intro y hy
    have := h y (mem_of_mem_readWhitespaces r y hy)
    simpa [notChar] using this
  have hdr : (readWhitespaces r).dropWhile (notChar ':') = [] := dropWhile_all _ hp
  have h1 : Regexp Pattern.headerName false 0 r =
      some ((readWhitespaces r).takeWhile (notChar ':'), []) := by
    unfold Regexp
    simp only [Bool.false_eq_true, if_false, matchPattern, hdr]
    rfl
  have h2 : Rune ':' [] = none := rfl
  unfold headerLine headerParser
  rw [h1]
  simp only
  rw [h2]

theorem manyRun_headerLines (hs : List (List Char × List Char)) (rest : List Char)
    (hshape : ∀ h ∈ hs, HeaderShape h) (hstop : headerLine rest = none) :
    manyRun headerLine (headerLines hs ++ rest) = (headerNodes hs, rest) := by
  induction hs with
  | nil => exact manyRun_none _ _ hstop
  | cons h t ih =>
    obtain ⟨h1, h2, h3, h4⟩ := hshape h (List.mem_cons_self _ _)
    have hl := headerLine_line h.1 h.2 (headerLines t ++ rest) h1 h2 h3 h4
    have e : headerLines (h :: t) ++ rest =
        h.1 ++ ':' :: (h.2 ++ '\n' :: (headerLines t ++ rest)) := by
      simp [headerLines]
    rw [e, manyRun_some headerLine headerLine_consuming _ _ _ hl,
      ih (fun x hx => hshape x (List.mem_cons_of_mem _ hx))]
    rfl

/-! ## The interpreters -/

theorem headersInterpreter_keys (nodes : List (List Char × List Char)) (rd : ResponseData) :
    (headersInterpreter nodes rd).OrderedHeaderKeys =
      rd.OrderedHeaderKeys ++ nodes.map Prod.fst := by
  induction nodes generalizing rd with
  | nil => simp [headersInterpreter]
  | cons h t ih =>
    have e : headersInterpreter (h :: t) rd = headersInterpreter t
        { rd with OrderedHeaderKeys := rd.OrderedHeaderKeys ++ [h.1]
                  Headers := mapSet rd.Headers h.1 h.2 } := rfl
    rw [e, ih]
    simp

theorem headersInterpreter_headers (nodes : List (List Char × List Char)) (rd : ResponseData) :
    (headersInterpreter nodes rd).Headers =
      nodes.foldl (fun m h => mapSet m h.1 h.2) rd.Headers := by
  induction nodes generalizing rd with
  | nil => simp [headersInterpreter]
  | cons h t ih =>
    have e : headersInterpreter (h :: t) rd = headersInterpreter t
        { rd with OrderedHeaderKeys := rd.OrderedHeaderKeys ++ [h.1]
                  Headers := mapSet rd.Headers h.1 h.2 } := rfl
    rw [e, ih]
    rfl

theorem headersInterpreter_rest (nodes : List (List Char × List Char)) (rd : ResponseData) :
    (headersInterpreter nodes rd).ProtocolVersion = rd.ProtocolVersion ∧
    (headersInterpreter nodes rd).StatusCode = rd.StatusCode ∧
    (headersInterpreter nodes rd).StatusString = rd.StatusString ∧
    (headersInterpreter nodes rd).Unparsed = rd.Unparsed := by
  induction nodes generalizing rd with
  | nil => simp [headersInterpreter]
  | cons h t ih =>
    have e : headersInterpreter (h :: t) rd = headersInterpreter t
        { rd with OrderedHeaderKeys := rd.OrderedHeaderKeys ++ [h.1]
                  Headers := mapSet rd.Headers h.1 h.2 } := rfl
    rw [e]
    exact ih _

theorem linesInterpreter_eq (nodes : List (List Char)) (rd : ResponseData) :
    linesInterpreter nodes rd = { rd with Unparsed := rd.Unparsed ++ nodes } := by
  induction nodes generalizing rd with
  | nil => simp [linesInterpreter]
  | cons l t ih =>
    have e : linesInterpreter (l :: t) rd =
        linesInterpreter t { rd with Unparsed := rd.Unparsed ++ [l] } := rfl
    rw [e, ih]
    simp

theorem headersInterpreter_eq (nodes : List (List Char × List Char)) (rd : ResponseData) :
    headersInterpreter nodes rd =
      { rd with OrderedHeaderKeys := rd.OrderedHeaderKeys ++ nodes.map Prod.fst
                Headers := nodes.foldl (fun m h => mapSet m h.1 h.2) rd.Headers } := by
  have h1 := headersInterpreter_keys nodes rd
  have h2 := headersInterpreter_headers nodes rd
  obtain ⟨h3, h4, h5, h6⟩ := headersInterpreter_rest nodes rd
  cases hr : headersInterpreter nodes rd
  rw [hr] at h1 h2 h3 h4 h5 h6
  simp only at h1 h2 h3 h4 h5 h6
  simp [h1, h2, h3, h4, h5, h6]

/-! ## The map -/

theorem mapGet_mapSet (m : List (List Char × List Char)) (k v k2 : List Char) :
    mapGet (mapSet m k v) k2 = if k = k2 then v else mapGet m k2 := by
  induction m with
  | nil => simp [mapSet, mapGet]
  | cons p t ih =>
    obtain ⟨k1, v1⟩ := p
    by_cases h1 : k1 = k
    · subst h1
      by_cases h2 : k1 = k2 <;> simp [mapSet, mapGet, h2]
    · by_cases h2 : k1 = k2
      · subst h2
        have h3 : ¬ k = k1 := fun e => h1 e.symm
        simp [mapSet, mapGet, h1, h3]
      · simp [mapSet, mapGet, h1, h2, ih]

theorem mapGet_foldl (hs : List (List Char × List Char)) (m : List (List Char × List Char))
    (k : List Char) :
    mapGet (hs.foldl (fun m h => mapSet m h.1 h.2) m) k =
      hs.foldl (fun acc h => if h.1 = k then h.2 else acc) (mapGet m k) := by
  induction hs generalizing m with
  | nil => rfl
  | cons h t ih =>
    simp only [List.foldl_cons]
    rw [ih, mapGet_mapSet]

theorem foldl_last_consistent (hs : List (List Char × List Char)) (k v acc : List Char)
    (hcons : ∀ q ∈ hs, q.1 = k → q.2 = v) (hex : acc = v ∨ ∃ q ∈ hs, q.1 = k) :
    hs.foldl (fun acc h => if h.1 = k then h.2 else acc) acc = v := by
  induction hs generalizing acc with
  | nil =>
    rcases hex with h | ⟨q, hq, _⟩
    · exact h
    · simp at hq
  | cons h t ih =>
    simp only [List.foldl_cons]
    apply ih _ (fun q hq => hcons q (List.mem_cons_of_mem _ hq))
    by_cases hk : h.1 = k
    · left; simp [hk, hcons h (List.mem_cons_self _ _) hk]
    · rcases hex with h0 | ⟨q, hq, hqk⟩
      · left; simp [hk, h0]
      · right
        rcases List.mem_cons.mp hq with e | e
        · subst e; exact absurd hqk hk
        · exact ⟨q, e, hqk⟩

/-! ## Rendering -/

theorem intercalate_cons_cons (sep a b : List Char) (l : List (List Char)) :
    List.intercalate sep (a :: b :: l) = a ++ sep ++ List.intercalate sep (b :: l) := by
  simp [List.intercalate, List.intersperse]

theorem intercalate_single (sep a : List Char) : List.intercalate sep [a] = a := by
  simp [List.intercalate, List.intersperse]

theorem foldl_join (sep : List Char) (rest : List (List Char)) (b e : List Char) :
    rest.foldl (fun b s => b ++ sep ++ s) (b ++ e) =
      b ++ rest.foldl (fun b s => b ++ sep ++ s) e := by
  induction rest generalizing e with
  | nil => rfl
  | cons s t ih =>
    simp only [List.foldl_cons]
    rw [← ih]
    simp [List.append_assoc]

theorem Join_eq_intercalate (elems : List (List Char)) (sep : List Char) :
    Join elems sep = List.intercalate sep elems := by
  induction elems with
  | nil => rfl
  | cons e rest ih =>
    cases rest with
    | nil => simp [Join, intercalate_single]
    | cons s t =>
      rw [intercalate_cons_cons, ← ih]
      simp only [Join, List.foldl_cons]
      rw [List.append_assoc, foldl_join, foldl_join]
      simp [List.append_assoc]

theorem foldl_payload (f : List Char → List Char) (keys : List (List Char))
    (p : List (List Char)) :
    keys.foldl (fun payload key => payload ++ [f key]) p = p ++ keys.map f := by
  induction keys generalizing p with
  | nil => simp
  | cons k t ih => simp [ih]

theorem ToHTTP_eq_specToHTTP (r : ResponseData) : ToHTTP r = specToHTTP r := by
  unfold ToHTTP specToHTTP specLines
  simp only [List.nil_append]
  rw [Join_eq_intercalate, foldl_payload (fun key => key ++ ':' :: ' ' :: mapGet r.Headers key)]

theorem terminated_append (a b : List (List Char)) :
    terminated (a ++ b) = terminated a ++ terminated b := by
  induction a with
  | nil => rfl
  | cons l t ih => simp [terminated, ih]

theorem intercalate_terminated (ls : List (List Char)) (h : ls ≠ []) :
    List.intercalate ['\n'] ls ++ ['\n'] = terminated ls := by
  induction ls with
  | nil => exact absurd rfl h
  | cons l t ih =>
    cases t with
    | nil => simp [intercalate_single, terminated]
    | cons m u =>
      rw [intercalate_cons_cons, List.append_assoc, ih (by simp)]
      simp [terminated]

theorem terminated_headerLines (hs : List (List Char × List Char)) :
    terminated (hs.map (fun h => h.1 ++ ':' :: h.2)) = headerLines hs := by
  induction hs with
  | nil => rfl
  | cons h t ih => simp [terminated, headerLines, ih]

/-! ## The whole response -/

theorem terminated_noColon (ls : List (List Char)) (h : ∀ l ∈ ls, ∀ c ∈ l, c ≠ ':') :
    ∀ y ∈ terminated ls, y ≠ ':' := by
  induction ls with
  | nil => intro y hy; simp [terminated] at hy
  | cons l t ih =>
    intro y hy
    simp only [terminated, List.mem_append, List.mem_cons] at hy
    rcases hy with h1 | h1 | h1
    · exact h l (List.mem_cons_self _ _) y h1
    · rw [h1]; decide
    · exact ih (fun m hm => h m (List.mem_cons_of_mem _ hm)) y h1

theorem manyRun_headerLine_skip (c : Char) (r : List Char) (hc : isWhitespace c = true)
    (a : List Char × List Char) (r1 : List Char) (h : headerLine r = some (a, r1)) :
    manyRun headerLine (c :: r) = manyRun headerLine r := by
  have h2 : headerLine (c :: r) = some (a, r1) := by rw [headerLine_ws c r hc]; exact h
  rw [manyRun_some headerLine headerLine_consuming _ _ _ h2,
    manyRun_some headerLine headerLine_consuming _ _ _ h]

theorem End_nil : End [] = some ((), []) := rfl

theorem headers_then_lines (hs : List (List Char × List Char)) (ls : List (List Char))
    (hshape : ∀ h ∈ hs, HeaderShape h) (hcolon : ∀ l ∈ ls, ∀ c ∈ l, c ≠ ':') :
    manyRun headerLine ('\n' :: (headerLines hs ++ terminated ls)) =
      (headerNodes hs, (match hs with
        | [] => '\n' :: terminated ls
        | _ :: _ => terminated ls)) := by
  have hstop : headerLine (terminated ls) = none :=
    headerLine_noColon _ (terminated_noColon ls hcolon)
  cases hs with
  | nil =>
    have hno : headerLine ('\n' :: terminated ls) = none := by
      rw [headerLine_ws '\n' _ (by decide)]; exact hstop
    simpa [headerLines, headerNodes] using manyRun_none headerLine _ hno
  | cons h t =>
    obtain ⟨h1, h2, h3, h4⟩ := hshape h (List.mem_cons_self _ _)
    have hl := headerLine_line h.1 h.2 (headerLines t ++ terminated ls) h1 h2 h3 h4
    have e : headerLines (h :: t) ++ terminated ls =
        h.1 ++ ':' :: (h.2 ++ '\n' :: (headerLines t ++ terminated ls)) := by
      simp [headerLines]
    rw [manyRun_headerLine_skip '\n' _ (by decide) _ _ (by rw [e]; exact hl)]
    exact manyRun_headerLines (h :: t) (terminated ls) hshape hstop

theorem statusLineText_append (v : List Char) (n : Nat) (t rest : List Char) :
    statusLineText v n t ++ rest =
      "HTTP/".toList ++ (v ++ ' ' :: (Nat.toDigits 10 n ++ ' ' :: (t ++ rest))) := by
  simp [statusLineText]

theorem Sentence_shape (v : List Char) (n : Nat) (t : List Char)
    (hs : List (List Char × List Char)) (ls : List (List Char))
    (hv : v ≠ []) (hsp : ∀ y ∈ v, y ≠ ' ') (hn : n ≤ maxInt)
    (htnl : ∀ y ∈ t, y ≠ '\n') (htvis : readWhitespaces t ≠ [])
    (hshape : ∀ h ∈ hs, HeaderShape h)
    (hnl : ∀ l ∈ ls, ∀ c ∈ l, c ≠ '\n') (hcolon : ∀ l ∈ ls, ∀ c ∈ l, c ≠ ':') :
    Sentence httpResponseParser
      (statusLineText v n t ++ '\n' :: (headerLines hs ++ terminated ls)) =
      Run.returned (some ⟨⟨v, (n : Int), readWhitespaces t⟩, headerNodes hs,
        capturedLines hs ls⟩) := by
  have hst := statusLineParser_line v n t ('\n' :: (headerLines hs ++ terminated ls))
    hv hsp hn htnl (Or.inr ⟨htvis, _, rfl⟩)
  rw [← statusLineText_append] at hst
  have hh := headers_then_lines hs ls hshape hcolon
  unfold Sentence httpResponseParser
  rw [hst]
  simp only [headersParser, linesParser, Many, hh]
  cases hs with
  | nil =>
    have hr : manyRun rawLine ('\n' :: terminated ls) = ([] :: ls, []) := by
      have := manyRun_rawLine_terminated ([] :: ls) (by
        intro l hl
        rcases List.mem_cons.mp hl with e | e
        · rw [e]; intro c hc; simp at hc
        · exact hnl l e)
      simpa [terminated] using this
    simp only [hr, End_nil, capturedLines]
  | cons h t =>
    simp only [manyRun_rawLine_terminated ls hnl, End_nil, capturedLines]

theorem Parse_shape (v : List Char) (n : Nat) (t : List Char)
    (hs : List (List Char × List Char)) (ls : List (List Char))
    (hv : v ≠ []) (hsp : ∀ y ∈ v, y ≠ ' ') (hn : n ≤ maxInt)
    (htnl : ∀ y ∈ t, y ≠ '\n') (htvis : readWhitespaces t ≠ [])
    (hshape : ∀ h ∈ hs, HeaderShape h)
    (hnl : ∀ l ∈ ls, ∀ c ∈ l, c ≠ '\n') (hcolon : ∀ l ∈ ls, ∀ c ∈ l, c ≠ ':')
    (hcr : hasCRLF (statusLineText v n t ++ '\n' :: (headerLines hs ++ terminated ls)) = false) :
    Parse (statusLineText v n t ++ '\n' :: (headerLines hs ++ terminated ls)) =
      Run.returned ({ ProtocolVersion := "HTTP/".toList ++ v
                      StatusCode := (n : Int)
                      StatusString := readWhitespaces t
                      OrderedHeaderKeys := hs.map Prod.fst
                      Headers := (headerNodes hs).foldl (fun m h => mapSet m h.1 h.2) []
                      Unparsed := capturedLines hs ls }, none) := by
  have h := Sentence_shape v n t hs ls hv hsp hn htnl htvis hshape hnl hcolon
  unfold Parse
  rw [NewReader_of_noCRLF _ hcr]
  simp only [h, httpResponseInterpreter, linesInterpreter_eq, headersInterpreter_eq,
    statusLineInterpreter, NewResponseData, List.nil_append, headerNodes, List.map_map]
  rfl

/-! ## What is left of the input -/

theorem readWhitespaces_suffix (r : List Char) : readWhitespaces r <:+ r :=
  List.dropWhile_suffix isWhitespace

theorem matchPattern_suffix (p : Pattern) (r : List Char) (g : List (List Char))
    (r1 : List Char) (h : matchPattern p r = some (g, r1)) : r1 <:+ r := by
  cases p with
  | protocolVersion =>
    cases r with
    | nil => simp [matchPattern] at h
    | cons c t =>
      by_cases hc : c = '/'
      · subst hc
        simp only [matchPattern] at h
        split at h
        · simp at h
        · simp only [Option.some.injEq, Prod.mk.injEq] at h
          rw [← h.2]
          exact (List.dropWhile_suffix _).trans (List.suffix_cons _ _)
      · simp [matchPattern, hc] at h
  | anyChar =>
    simp only [matchPattern, Option.some.injEq, Prod.mk.injEq] at h
    rw [← h.2]; exact List.dropWhile_suffix _
  | headerName =>
    simp only [matchPattern, Option.some.injEq, Prod.mk.injEq] at h
    rw [← h.2]; exact List.dropWhile_suffix _
  | newline =>
    cases r with
    | nil => simp [matchPattern] at h
    | cons c t =>
      by_cases hc : c = '\n'
      · subst hc
        simp only [matchPattern, Option.some.injEq, Prod.mk.injEq] at h
        rw [← h.2]; exact List.suffix_cons _ _
      · simp [matchPattern, hc] at h
  | content =>
    simp only [matchPattern, Option.some.injEq, Prod.mk.injEq] at h
    rw [← h.2]; exact List.dropWhile_suffix _

theorem Regexp_suffix (p : Pattern) (iw : Bool) (gi : Nat) (r : List Char) (v : List Char)
    (r1 : List Char) (h : Regexp p iw gi r = some (v, r1)) : r1 <:+ r := by
  unfold Regexp at h
  simp only at h
  split at h
  · simp at h
  · rename_i groups rest hm
    simp only [Option.some.injEq, Prod.mk.injEq] at h
    have h1 := matchPattern_suffix p _ groups rest hm
    rw [← h.2]
    cases iw
    · simp only [Bool.false_eq_true, if_false] at h1
      exact h1.trans (readWhitespaces_suffix r)
    · simpa using h1

theorem Rune_suffix (ch : Char) (r : List Char) (a : Char) (r1 : List Char)
    (h : Rune ch r = some (a, r1)) : r1 <:+ r := by
  unfold Rune at h
  have hl := readWhitespaces_suffix r
  split at h
  · rename_i c t heq
    rw [heq] at hl
    split at h
    · simp only [Option.some.injEq, Prod.mk.injEq] at h
      rw [← h.2]
      exact (List.suffix_cons _ _).trans hl
    · simp at h
  · simp at h

theorem headerLine_suffix (r : List Char) (a : List Char × List Char) (r1 : List Char)
    (h : headerLine r = some (a, r1)) : r1 <:+ r := by
  unfold headerLine at h
  split at h
  · simp at h
  · rename_i v0 ra h0
    split at h
    · simp at h
    · rename_i v1 rb h1
      simp only [Option.some.injEq, Prod.mk.injEq] at h
      have s4 := Regexp_suffix _ _ _ _ _ _ h1
      unfold headerParser at h0
      split at h0
      · simp at h0
      · rename_i n0 rc hc
        split at h0
        · simp at h0
        · rename_i n1 rd hd
          split at h0
          · simp at h0
          · rename_i n2 re he
            simp only [Option.some.injEq, Prod.mk.injEq] at h0
            have s1 := Regexp_suffix _ _ _ _ _ _ hc
            have s2 := Rune_suffix _ _ _ _ hd
            have s3 := Regexp_suffix _ _ _ _ _ _ he
            rw [h0.2] at s3
            rw [← h.2]
            exact ((s4.trans s3).trans s2).trans s1

theorem rawLine_suffix (r : List Char) (a : List Char) (r1 : List Char)
    (h : rawLine r = some (a, r1)) : r1 <:+ r := by
  unfold rawLine at h
  split at h
  · simp at h
  · rename_i v0 ra h0
    split at h
    · simp at h
    · rename_i v1 rb h1
      simp only [Option.some.injEq, Prod.mk.injEq] at h
      rw [← h.2]
      exact (Regexp_suffix _ _ _ _ _ _ h1).trans (Regexp_suffix _ _ _ _ _ _ h0)

theorem manyFuel_suffix {α : Type} (p : Parser α)
    (hp : ∀ r a r1, p r = some (a, r1) → r1 <:+ r) :
    ∀ (fuel : Nat) (r : List Char), (manyFuel p fuel r).2 <:+ r := by
  intro fuel
  induction fuel with
  | zero => intro r; exact List.suffix_refl r
  | succ f ih =>
    intro r
    simp only [manyFuel]
    cases hpr : p r with
    | none => exact List.suffix_refl r
    | some x =>
      obtain ⟨a, r1⟩ := x
      exact (ih r1).trans (hp r a r1 hpr)

theorem manyRun_suffix {α : Type} (p : Parser α)
    (hp : ∀ r a r1, p r = some (a, r1) → r1 <:+ r) (r : List Char) :
    (manyRun p r).2 <:+ r :=
  manyFuel_suffix p hp _ r

/-- The repetition stops only where the repeated parser fails: the rounds
of `manyRun` are never used up. -/
theorem manyRun_leftover {α : Type} (p : Parser α) (hp : Consuming p) :
    ∀ (n : Nat) (r : List Char), r.length ≤ n → p (manyRun p r).2 = none := by
  intro n
  induction n with
  | zero =>
    intro r hr
    cases hpr : p r with
    | none => rw [manyRun_none p r hpr]; exact hpr
    | some x =>
      obtain ⟨a, r1⟩ := x
      have := hp r a r1 hpr
      omega
  | succ n ih =>
    intro r hr
    cases hpr : p r with
    | none => rw [manyRun_none p r hpr]; exact hpr
    | some x =>
      obtain ⟨a, r1⟩ := x
      have hlt := hp r a r1 hpr
      rw [manyRun_some p hp r a r1 hpr]
      exact ih r1 (by omega)

/-- The header block ends where no further header line matches. -/
theorem headersParser_stops (r : List Char) :
    ∃ nodes rest, headersParser r = some (nodes, rest) ∧ headerLine rest = none :=
  ⟨(manyRun headerLine r).1, (manyRun headerLine r).2, rfl,
    manyRun_leftover headerLine headerLine_consuming r.length r (le_refl _)⟩

/-- Raw-line capture ends where no further terminator-ended line is left. -/
theorem linesParser_stops (r : List Char) :
    ∃ nodes rest, linesParser r = some (nodes, rest) ∧ rawLine rest = none :=
  ⟨(manyRun rawLine r).1, (manyRun rawLine r).2, rfl,
    manyRun_leftover rawLine rawLine_consuming r.length r (le_refl _)⟩

theorem dropWhile_notChar_cases (x : Char) (r : List Char) :
    (r.dropWhile (notChar x) = [] ∧ ∀ y ∈ r, y ≠ x) ∨
    ∃ t, r.dropWhile (notChar x) = x :: t := by
  induction r with
  | nil => left; simp
  | cons c t ih =>
    by_cases hc : c = x
    · right
      subst hc
      exact ⟨t, by simp [List.dropWhile, notChar]⟩
    · have hn : notChar x c = true := by simpa [notChar] using hc
      rcases ih with ⟨h1, h2⟩ | ⟨u, hu⟩
      · left
        refine ⟨by simp [List.dropWhile, hn, h1], ?_⟩
        intro y hy
        rcases List.mem_cons.mp hy with e | e
        · rw [e]; exact hc
        · exact h2 y e
      · right
        exact ⟨u, by simp [List.dropWhile, hn, hu]⟩

theorem rawLine_of_dropWhile (r t : List Char)
    (h : r.dropWhile (notChar '\n') = '\n' :: t) :
    rawLine r = some (r.takeWhile (notChar '\n'), t) := by
  unfold rawLine Regexp
  simp only [if_true, matchPattern, h]
  rfl

theorem rawLine_none_noNewline (r : List Char) (h : rawLine r = none) :
    ∀ y ∈ r, y ≠ '\n' := by
  rcases dropWhile_notChar_cases '\n' r with ⟨_, h2⟩ | ⟨t, ht⟩
  · exact h2
  · rw [rawLine_of_dropWhile r t ht] at h
    simp at h

theorem anyChar_total (r : List Char) :
    ∃ text r1, Regexp Pattern.anyChar false 0 r = some (text, r1) := by
  unfold Regexp
  simp only [matchPattern]
  exact ⟨_, _, rfl⟩

theorem statusLineParser_start (v : List Char) (n : Nat) (x : List Char)
    (hv : v ≠ []) (hsp : ∀ y ∈ v, y ≠ ' ') (hn : n ≤ maxInt) :
    ∃ text r1, statusLineParser (statusLineText v n x) =
        Run.returned (some (⟨v, (n : Int), text⟩, r1)) ∧
      r1 <:+ ' ' :: x := by
  obtain ⟨text, r1, ha⟩ := anyChar_total (' ' :: x)
  refine ⟨text, r1, ?_, Regexp_suffix _ _ _ _ _ _ ha⟩
  unfold statusLineParser statusLineText
  rw [Word_http]
  simp only
  rw [version_match v _ hv hsp]
  simp only
  rw [Integer_numeral n hn]
  simp only
  rw [ha]

theorem suffix_terminated_nil (r body : List Char) (hs : r <:+ body ++ ['\n'])
    (hn : ∀ y ∈ r, y ≠ '\n') : r = [] := by
  rcases List.eq_nil_or_concat r with h | ⟨l, c, h⟩
  · exact h
  · exfalso
    obtain ⟨pre, hpre⟩ := hs
    rw [h, ← List.concat_eq_append] at hpre
    simp only [List.concat_eq_append, ← List.append_assoc] at hpre
    have hc : c = '\n' := by
      have := List.append_inj_right' hpre rfl
      simpa using this
    apply hn c _ hc
    rw [h]
    simp

theorem Sentence_terminated (v : List Char) (n : Nat) (x : List Char)
    (hv : v ≠ []) (hsp : ∀ y ∈ v, y ≠ ' ') (hn : n ≤ maxInt) :
    ∃ node, Sentence httpResponseParser (statusLineText v n (x ++ ['\n'])) =
      Run.returned (some node) := by
  obtain ⟨text, r1, hst, hsuf⟩ := statusLineParser_start v n (x ++ ['\n']) hv hsp hn
  have h2 : (manyRun headerLine r1).2 <:+ r1 := manyRun_suffix headerLine headerLine_suffix r1
  have h3 : (manyRun rawLine (manyRun headerLine r1).2).2 <:+ (manyRun headerLine r1).2 :=
    manyRun_suffix rawLine rawLine_suffix _
  have hall : (manyRun rawLine (manyRun headerLine r1).2).2 <:+ (' ' :: x) ++ ['\n'] :=
    (h3.trans h2).trans hsuf
  have hfail := manyRun_leftover rawLine rawLine_consuming _ (manyRun headerLine r1).2 (le_refl _)
  have hnil := suffix_terminated_nil _ _ hall (rawLine_none_noNewline _ hfail)
  refine ⟨⟨⟨v, (n : Int), text⟩, (manyRun headerLine r1).1,
    (manyRun rawLine (manyRun headerLine r1).2).1⟩, ?_⟩
  unfold Sentence httpResponseParser
  rw [hst]
  simp only [headersParser, linesParser, Many, hnil, End_nil]

/-- The reader's text of a status line that ends with a line terminator is
again such a status line. -/
theorem NewReader_statusLineText (v : List Char) (n : Nat) (x : List Char) :
    ∃ y, NewReader (statusLineText v n (x ++ ['\n'])) =
      statusLineText (NewReader v) n (y ++ ['\n']) := by
  obtain ⟨y, hy⟩ := NewReader_terminated x
  refine ⟨y, ?_⟩
  unfold statusLineText
  rw [httpSlash_toList]
  simp only [List.cons_append, List.nil_append]
  rw [NewReader_cons_of_ne 'H' _ (by decide), NewReader_cons_of_ne 'T' _ (by decide),
    NewReader_cons_of_ne 'T' _ (by decide), NewReader_cons_of_ne 'P' _ (by decide),
    NewReader_cons_of_ne '/' _ (by decide),
    NewReader_append_cons v ' ' _ (by decide) (by decide),
    NewReader_append_cons (Nat.toDigits 10 n) ' ' _ (by decide) (by decide),
    NewReader_digits, hy]

/-- An input that starts like a status line and ends with a line terminator
is parsed without error and without panic. -/
theorem Parse_terminated (v : List Char) (n : Nat) (x : List Char)
    (hv : v ≠ []) (hsp : ∀ y ∈ v, y ≠ ' ') (hn : n ≤ maxInt) :
    ∃ r, Parse (statusLineText v n (x ++ ['\n'])) = Run.returned (r, none) := by
  obtain ⟨y, hy⟩ := NewReader_statusLineText v n x
  obtain ⟨node, h⟩ := Sentence_terminated (NewReader v) n y (NewReader_ne_nil v hv)
    (fun c hc => hsp c (mem_NewReader v c hc)) hn
  refine ⟨httpResponseInterpreter node NewResponseData, ?_⟩
  unfold Parse
  rw [hy, h]

theorem formatInt_natCast (n : Nat) : formatInt (n : Int) = Nat.toDigits 10 n := rfl

theorem spacedHeaders_shape (hs : List (List Char × List Char))
    (hname : ∀ h ∈ hs, (∀ y ∈ h.1, y ≠ ':') ∧ leadsWithWhitespace h.1 = false)
    (hvalue : ∀ h ∈ hs, h.2 ≠ [] ∧ leadsWithWhitespace h.2 = false ∧ ∀ y ∈ h.2, y ≠ '\n') :
    ∀ h ∈ spacedHeaders hs, HeaderShape h := by
  intro h hh
  simp only [spacedHeaders, List.mem_map] at hh
  obtain ⟨g, hg, e⟩ := hh
  obtain ⟨n1, n2⟩ := hname g hg
  obtain ⟨v1, v2, v3⟩ := hvalue g hg
  subst e
  refine ⟨n1, n2, ?_, ?_⟩
  · intro y hy
    rcases List.mem_cons.mp hy with e | e
    · rw [e]; decide
    · exact v3 y e
  · show readWhitespaces (' ' :: g.2) ≠ []
    rw [readWhitespaces_ws ' ' _ (by decide), readWhitespaces_clean _ v2]
    exact v1

theorem headerNodes_spacedHeaders (hs : List (List Char × List Char))
    (hvalue : ∀ h ∈ hs, leadsWithWhitespace h.2 = false) :
    headerNodes (spacedHeaders hs) = hs := by
  induction hs with
  | nil => rfl
  | cons h t ih =>
    have e : readWhitespaces (' ' :: h.2) = h.2 := by
      rw [readWhitespaces_ws ' ' _ (by decide),
        readWhitespaces_clean _ (hvalue h (List.mem_cons_self _ _))]
    have := ih (fun x hx => hvalue x (List.mem_cons_of_mem _ hx))
    simp only [headerNodes, spacedHeaders, List.map_cons, List.map_map] at this ⊢
    rw [this]
    simp [e]

theorem mapGet_consistent (hs : List (List Char × List Char))
    (hfun : ∀ p ∈ hs, ∀ q ∈ hs, p.1 = q.1 → p.2 = q.2) (p : List Char × List Char)
    (hp : p ∈ hs) :
    mapGet (hs.foldl (fun m h => mapSet m h.1 h.2) []) p.1 = p.2 := by
  rw [mapGet_foldl]
  exact foldl_last_consistent hs p.1 p.2 _ (fun q hq hk => (hfun q hq p hp hk))
    (Or.inr ⟨p, hp, rfl⟩)

/-- The rendering of a record whose header values agree for equal names. -/
theorem render_terminated (pv : List Char) (n : Nat) (t : List Char)
    (hs : List (List Char × List Char)) (ls : List (List Char)) (hpv : pv ≠ [])
    (hfun : ∀ p ∈ hs, ∀ q ∈ hs, p.1 = q.1 → p.2 = q.2) :
    ToHTTP { ProtocolVersion := pv, StatusCode := (n : Int), StatusString := t,
             OrderedHeaderKeys := hs.map Prod.fst,
             Headers := hs.foldl (fun m h => mapSet m h.1 h.2) [],
             Unparsed := ls } ++ ['\n'] =
      (pv ++ ' ' :: (Nat.toDigits 10 n ++ ' ' :: t)) ++
        '\n' :: (headerLines (spacedHeaders hs) ++ terminated ls) := by
  have hmap : (hs.map Prod.fst).map
      (fun k => k ++ ':' :: ' ' :: mapGet (hs.foldl (fun m h => mapSet m h.1 h.2) []) k) =
      (spacedHeaders hs).map (fun h => h.1 ++ ':' :: h.2) := by
    simp only [spacedHeaders, List.map_map]
    apply List.map_congr_left
    intro p hp
    simp only [Function.comp]
    rw [mapGet_consistent hs hfun p hp]
  rw [ToHTTP_eq_specToHTTP]
  unfold specToHTTP specLines
  simp only [hpv, ne_eq, not_false_eq_true, if_true, formatInt_natCast, hmap]
  rw [intercalate_terminated _ (by simp), terminated_append, terminated_append,
    terminated_headerLines]
  simp [terminated]


theorem headerLine_nil : headerLine [] = none :=
  headerLine_noColon [] (by intro y hy; simp at hy)

theorem evalHeaders_headerLines (hs : List (List Char × List Char))
    (hshape : ∀ h ∈ hs, HeaderShape h) (hcr : hasCRLF (headerLines hs) = false) :
    evalHeaders (headerLines hs) =
      Run.returned ({ ProtocolVersion := [], StatusCode := 0, StatusString := [],
                      OrderedHeaderKeys := hs.map Prod.fst,
                      Headers := (headerNodes hs).foldl (fun m h => mapSet m h.1 h.2) [],
                      Unparsed := [] }, none) := by
  have h := manyRun_headerLines hs [] hshape headerLine_nil
  rw [List.append_nil] at h
  unfold evalHeaders Sentence noPanic
  rw [NewReader_of_noCRLF _ hcr]
  simp only [headersParser, Many, h, End_nil, headersInterpreter_eq, NewResponseData,
    List.nil_append, headerNodes, List.map_map]
  rfl

/-! ## What a match yields -/

theorem takeWhile_notChar (x : Char) (r : List Char) :
    ∀ c ∈ r.takeWhile (notChar x), c ≠ x := by
  induction r with
  | nil => intro c hc; simp at hc
  | cons d t ih =>
    intro c hc
    by_cases hd : notChar x d = true
    · simp only [List.takeWhile, hd, List.mem_cons] at hc
      rcases hc with e | e
      · rw [e]; simpa [notChar] using hd
      · exact ih c e
    · simp [List.takeWhile, hd] at hc

theorem protocolVersion_inv (r v r1 : List Char)
    (h : Regexp Pattern.protocolVersion false 1 r = some (v, r1)) :
    v ≠ [] ∧ ∀ c ∈ v, c ≠ ' ' := by
  unfold Regexp at h
  simp only [Bool.false_eq_true, if_false] at h
  cases hr : readWhitespaces r with
  | nil => simp [hr, matchPattern] at h
  | cons d t =>
    rw [hr] at h
    by_cases hd : d = '/'
    · subst hd
      simp only [matchPattern] at h
      by_cases hv : t.takeWhile (notChar ' ') = []
      · simp [hv] at h
      · simp only [hv, if_false] at h
        have e : v = t.takeWhile (notChar ' ') := by
          simp only [Option.some.injEq, Prod.mk.injEq] at h
          rw [← h.1]; rfl
        rw [e]
        exact ⟨hv, takeWhile_notChar ' ' t⟩
    · simp [matchPattern, hd] at h

theorem anyChar_inv (r v r1 : List Char)
    (h : Regexp Pattern.anyChar false 0 r = some (v, r1)) : ∀ c ∈ v, c ≠ '\n' := by
  unfold Regexp at h
  simp only [Bool.false_eq_true, if_false, matchPattern, Option.some.injEq, Prod.mk.injEq] at h
  rw [← h.1]
  exact takeWhile_notChar '\n' _

theorem headerName_inv (r v r1 : List Char)
    (h : Regexp Pattern.headerName false 0 r = some (v, r1)) : ∀ c ∈ v, c ≠ ':' := by
  unfold Regexp at h
  simp only [Bool.false_eq_true, if_false, matchPattern, Option.some.injEq, Prod.mk.injEq] at h
  rw [← h.1]
  exact takeWhile_notChar ':' _

theorem content_inv (r v r1 : List Char)
    (h : Regexp Pattern.content true 0 r = some (v, r1)) : ∀ c ∈ v, c ≠ '\n' := by
  unfold Regexp at h
  simp only [if_true, matchPattern, Option.some.injEq, Prod.mk.injEq] at h
  rw [← h.1]
  exact takeWhile_notChar '\n' _

theorem statusLineParser_inv (b : List Char) (s : StatusLineNode) (r : List Char)
    (h : statusLineParser b = Run.returned (some (s, r))) :
    s.semver ≠ [] ∧ (∀ c ∈ s.semver, c ≠ ' ') ∧ ∀ c ∈ s.statusStringRaw, c ≠ '\n' := by
  unfold statusLineParser at h
  split at h
  · simp at h
  · rename_i u r1 h1
    split at h
    · simp at h
    · rename_i semver r2 h2
      split at h
      · simp at h
      · simp at h
      · rename_i code r3 h3
        split at h
        · simp at h
        · rename_i text r4 h4
          simp only [Run.returned.injEq, Option.some.injEq, Prod.mk.injEq] at h
          rw [← h.1]
          exact ⟨(protocolVersion_inv _ _ _ h2).1, (protocolVersion_inv _ _ _ h2).2,
            anyChar_inv _ _ _ h4⟩

theorem headerLine_inv (r : List Char) (a : List Char × List Char) (r1 : List Char)
    (h : headerLine r = some (a, r1)) :
    (∀ c ∈ a.1, c ≠ ':') ∧ ∀ c ∈ a.2, c ≠ '\n' := by
  unfold headerLine at h
  split at h
  · simp at h
  · rename_i v0 ra h0
    split at h
    · simp at h
    · rename_i v1 rb h1
      simp only [Option.some.injEq, Prod.mk.injEq] at h
      unfold headerParser at h0
      split at h0
      · simp at h0
      · rename_i n0 rc hc
        split at h0
        · simp at h0
        · rename_i n1 rd hd
          split at h0
          · simp at h0
          · rename_i n2 re he
            simp only [Option.some.injEq, Prod.mk.injEq] at h0
            rw [← h.1, ← h0.1]
            exact ⟨headerName_inv _ _ _ hc, anyChar_inv _ _ _ he⟩

theorem rawLine_inv (r a r1 : List Char) (h : rawLine r = some (a, r1)) :
    ∀ c ∈ a, c ≠ '\n' := by
  unfold rawLine at h
  split at h
  · simp at h
  · rename_i v0 ra h0
    split at h
    · simp at h
    · rename_i v1 rb h1
      simp only [Option.some.injEq, Prod.mk.injEq] at h
      rw [← h.1]
      exact content_inv _ _ _ h0

theorem manyFuel_forall {α : Type} (p : Parser α) (Q : α → Prop)
    (hp : ∀ r a r1, p r = some (a, r1) → Q a) :
    ∀ (fuel : Nat) (r : List Char), ∀ a ∈ (manyFuel p fuel r).1, Q a := by
  intro fuel
  induction fuel with
  | zero => intro r a ha; simp [manyFuel] at ha
  | succ f ih =>
    intro r a ha
    simp only [manyFuel] at ha
    cases hpr : p r with
    | none => simp [hpr] at ha
    | some x =>
      obtain ⟨a0, r1⟩ := x
      simp only [hpr, List.mem_cons] at ha
      rcases ha with e | e
      · rw [e]; exact hp r a0 r1 hpr
      · exact ih r1 a e

theorem manyRun_forall {α : Type} (p : Parser α) (Q : α → Prop)
    (hp : ∀ r a r1, p r = some (a, r1) → Q a) (r : List Char) :
    ∀ a ∈ (manyRun p r).1, Q a :=
  manyFuel_forall p Q hp _ r

/-- A successful `Parse` is the three interpreters run over the nodes of the
status line, the header block and the raw lines. -/
theorem Parse_ok_inv (b : List Char) (r : ResponseData)
    (h : Parse b = Run.returned (r, none)) :
    ∃ s r1, statusLineParser (NewReader b) = Run.returned (some (s, r1)) ∧
      r = linesInterpreter (manyRun rawLine (manyRun headerLine r1).2).1
        (headersInterpreter (manyRun headerLine r1).1 (statusLineInterpreter s NewResponseData)) := by
  cases hst : statusLineParser (NewReader b) with
  | panicked => simp [Parse, Sentence, httpResponseParser, hst] at h
  | returned o =>
    cases o with
    | none => simp [Parse, Sentence, httpResponseParser, hst] at h
    | some x =>
      obtain ⟨s, r1⟩ := x
      refine ⟨s, r1, rfl, ?_⟩
      cases hE : End (manyRun rawLine (manyRun headerLine r1).2).2 with
      | none =>
        simp [Parse, Sentence, httpResponseParser, hst, headersParser, linesParser,
          Many, hE] at h
      | some u =>
        simp only [Parse, Sentence, httpResponseParser, hst, headersParser, linesParser,
          Many, hE, httpResponseInterpreter, Run.returned.injEq, Prod.mk.injEq, and_true] at h
        exact h.symm

/-! ## The map and the key list -/

theorem mem_mapSet (m : List (List Char × List Char)) (k v : List Char)
    (p : List Char × List Char) (h : p ∈ mapSet m k v) : p ∈ m ∨ p = (k, v) := by
  induction m with
  | nil => right; simpa [mapSet] using h
  | cons q t ih =>
    obtain ⟨k1, v1⟩ := q
    by_cases hk : k1 = k
    · simp only [mapSet, hk, if_true, List.mem_cons] at h
      rcases h with e | e
      · right; exact e
      · left; exact List.mem_cons_of_mem _ e
    · simp only [mapSet, hk, if_false, List.mem_cons] at h
      rcases h with e | e
      · left; rw [e]; exact List.mem_cons_self _ _
      · rcases ih e with e2 | e2
        · left; exact List.mem_cons_of_mem _ e2
        · right; exact e2

theorem mapSet_keys_of_mem (m : List (List Char × List Char)) (k v : List Char)
    (h : k ∈ m.map Prod.fst) : (mapSet m k v).map Prod.fst = m.map Prod.fst := by
  induction m with
  | nil => simp at h
  | cons q t ih =>
    obtain ⟨k1, v1⟩ := q
    by_cases hk : k1 = k
    · simp [mapSet, hk]
    · have ht : k ∈ t.map Prod.fst := by
        simp only [List.map_cons, List.mem_cons] at h
        rcases h with e | e
        · exact absurd e.symm hk
        · exact e
      simp [mapSet, hk, ih ht]

theorem mapSet_keys_of_not_mem (m : List (List Char × List Char)) (k v : List Char)
    (h : k ∉ m.map Prod.fst) : (mapSet m k v).map Prod.fst = m.map Prod.fst ++ [k] := by
  induction m with
  | nil => simp [mapSet]
  | cons q t ih =>
    obtain ⟨k1, v1⟩ := q
    simp only [List.map_cons, List.mem_cons, not_or] at h
    have hk : ¬ k1 = k := fun e => h.1 e.symm
    simp [mapSet, hk, ih h.2]

theorem KeysAgree_nil : KeysAgree [] [] := by
  simp [KeysAgree]

theorem KeysAgree_step (ks : List (List Char)) (m : List (List Char × List Char))
    (k v : List Char) (h : KeysAgree ks m) : KeysAgree (ks ++ [k]) (mapSet m k v) := by
  obtain ⟨h1, h2, h3, h4⟩ := h
  have hlen : (mapSet m k v).length = ((mapSet m k v).map Prod.fst).length := by simp
  have hlen0 : m.length = (m.map Prod.fst).length := by simp
  by_cases hk : k ∈ m.map Prod.fst
  · have e := mapSet_keys_of_mem m k v hk
    have hks : k ∈ ks := (h2 k).mpr hk
    refine ⟨by rw [e]; exact h1, ?_, ?_, ?_⟩
    · intro x
      rw [e, List.mem_append, List.mem_singleton]
      constructor
      · rintro (hx | hx)
        · exact (h2 x).mp hx
        · rw [hx]; exact hk
      · intro hx; exact Or.inl ((h2 x).mpr hx)
    · rw [hlen, e, ← hlen0, List.length_append]; simp; omega
    · rw [hlen, e, ← hlen0, List.length_append]
      constructor
      · intro he; simp at he; omega
      · intro hn
        exfalso
        rw [List.nodup_append] at hn
        exact hn.2.2 hks (List.mem_singleton_self k)
  · have e := mapSet_keys_of_not_mem m k v hk
    have hks : k ∉ ks := fun hx => hk ((h2 k).mp hx)
    refine ⟨?_, ?_, ?_, ?_⟩
    · rw [e, List.nodup_append]
      refine ⟨h1, List.nodup_singleton k, ?_⟩
      intro x hx hx2
      rw [List.mem_singleton] at hx2
      rw [hx2] at hx
      exact hk hx
    · intro x
      rw [e, List.mem_append, List.mem_append, h2 x]
    · rw [hlen, e, List.length_append, List.length_append, ← hlen0]; simp; exact h3
    · rw [hlen, e, List.length_append, List.length_append, ← hlen0]
      simp only [List.length_singleton, Nat.add_right_cancel_iff]
      rw [h4, List.nodup_append]
      constructor
      · intro hn
        refine ⟨hn, List.nodup_singleton k, ?_⟩
        intro x hx hx2
        rw [List.mem_singleton] at hx2
        rw [hx2] at hx
        exact hks hx
      · intro hn; exact hn.1

theorem KeysAgree_foldl (hs : List (List Char × List Char)) (ks : List (List Char))
    (m : List (List Char × List Char)) (h : KeysAgree ks m) :
    KeysAgree (ks ++ hs.map Prod.fst) (hs.foldl (fun m h => mapSet m h.1 h.2) m) := by
  induction hs generalizing ks m with
  | nil => simpa using h
  | cons p t ih =>
    have := ih (ks ++ [p.1]) (mapSet m p.1 p.2) (KeysAgree_step ks m p.1 p.2 h)
    simpa [List.append_assoc] using this

theorem mem_foldl_mapSet (hs : List (List Char × List Char))
    (m : List (List Char × List Char)) (p : List Char × List Char)
    (h : p ∈ hs.foldl (fun m h => mapSet m h.1 h.2) m) : p ∈ m ∨ p ∈ hs := by
  induction hs generalizing m with
  | nil => left; exact h
  | cons q t ih =>
    simp only [List.foldl_cons] at h
    rcases ih _ h with e | e
    · rcases mem_mapSet m q.1 q.2 p e with e2 | e2
      · left; exact e2
      · right; rw [e2]; exact List.mem_cons_self _ _
    · right; exact List.mem_cons_of_mem _ e

/-- The ways `Parse` ends: a panic, the fresh record with the error, or the
interpreters run over the nodes of a whole match. -/
theorem Parse_cases (b : List Char) :
    Parse b = Run.panicked ∨
    Parse b = Run.returned (NewResponseData, some ReaderError.mk) ∨
    ∃ node, Sentence httpResponseParser (NewReader b) = Run.returned (some node) ∧
      Parse b = Run.returned (httpResponseInterpreter node NewResponseData, none) := by
  cases hS : Sentence httpResponseParser (NewReader b) with
  | panicked => left; simp [Parse, hS]
  | returned o =>
    cases o with
    | none => right; left; simp [Parse, hS]
    | some node => right; right; exact ⟨node, rfl, by simp [Parse, hS]⟩

theorem httpResponseInterpreter_eq (node : ResponseNode) :
    httpResponseInterpreter node NewResponseData =
      { ProtocolVersion := "HTTP/".toList ++ node.status.semver
        StatusCode := node.status.statusCodeRaw
        StatusString := node.status.statusStringRaw
        OrderedHeaderKeys := node.headers.map Prod.fst
        Headers := node.headers.foldl (fun m h => mapSet m h.1 h.2) []
        Unparsed := node.lines } := by
  simp [httpResponseInterpreter, linesInterpreter_eq, headersInterpreter_eq,
    statusLineInterpreter, NewResponseData]

/-! ## Rendering with repeated keys -/

theorem mapGet_lastValue (hs : List (List Char × List Char)) (k : List Char) :
    mapGet (hs.foldl (fun m h => mapSet m h.1 h.2) []) k = lastValue k hs := by
  rw [mapGet_foldl]
  rfl

/-- The rendering of a parsed record shows, for every key, its last value. -/
theorem render_lastValues (pv : List Char) (n : Nat) (t : List Char)
    (hs : List (List Char × List Char)) (ls : List (List Char)) (hpv : pv ≠ []) :
    ToHTTP { ProtocolVersion := pv, StatusCode := (n : Int), StatusString := t,
             OrderedHeaderKeys := hs.map Prod.fst,
             Headers := hs.foldl (fun m h => mapSet m h.1 h.2) [],
             Unparsed := ls } ++ ['\n'] =
      (pv ++ ' ' :: (Nat.toDigits 10 n ++ ' ' :: t)) ++
        '\n' :: (headerLines (spacedHeaders (lastValues hs)) ++ terminated ls) := by
  have hmap : (hs.map Prod.fst).map
      (fun k => k ++ ':' :: ' ' :: mapGet (hs.foldl (fun m h => mapSet m h.1 h.2) []) k) =
      (spacedHeaders (lastValues hs)).map (fun h => h.1 ++ ':' :: h.2) := by
    simp only [spacedHeaders, lastValues, List.map_map]
    apply List.map_congr_left
    intro p _
    simp only [Function.comp]
    rw [mapGet_lastValue]
  rw [ToHTTP_eq_specToHTTP]
  unfold specToHTTP specLines
  simp only [hpv, ne_eq, not_false_eq_true, if_true, formatInt_natCast, hmap]
  rw [intercalate_terminated _ (by simp), terminated_append, terminated_append,
    terminated_headerLines]
  simp [terminated]

/-! ## Header lines with leading whitespace -/

theorem readWhitespaces_append_stop (a : List Char) (c : Char) (r : List Char)
    (hc : isWhitespace c = false) :
    readWhitespaces (a ++ c :: r) = readWhitespaces a ++ c :: r := by
  induction a with
  | nil => exact readWhitespaces_non c r hc
  | cons d t ih =>
    by_cases hd : isWhitespace d = true
    · rw [List.cons_append, readWhitespaces_ws d _ hd, readWhitespaces_ws d t hd, ih]
    · have hd2 : isWhitespace d = false := by simpa using hd
      rw [List.cons_append, readWhitespaces_non d _ hd2, readWhitespaces_non d t hd2]
      rfl

theorem leadsWithWhitespace_readWhitespaces (a : List Char) :
    leadsWithWhitespace (readWhitespaces a) = false := by
  induction a with
  | nil => rfl
  | cons d t ih =>
    by_cases hd : isWhitespace d = true
    · rw [readWhitespaces_ws d t hd]; exact ih
    · have hd2 : isWhitespace d = false := by simpa using hd
      rw [readWhitespaces_non d t hd2]
      exact hd2

theorem headerLine_congr (r r2 : List Char) (h : readWhitespaces r = readWhitespaces r2) :
    headerLine r = headerLine r2 := by
  unfold headerLine headerParser Regexp
  simp only [Bool.false_eq_true, if_false, h]

/-- A header line is read back as the name and the value, each less its
leading whitespace. -/
theorem headerLine_trimmed (name value rest : List Char)
    (hcolon : ∀ y ∈ name, y ≠ ':') (hnl : ∀ y ∈ value, y ≠ '\n')
    (hvis : readWhitespaces value ≠ []) :
    headerLine (name ++ ':' :: (value ++ '\n' :: rest)) =
      some ((readWhitespaces name, readWhitespaces value), rest) := by
  have h1 : readWhitespaces (name ++ ':' :: (value ++ '\n' :: rest)) =
      readWhitespaces (readWhitespaces name ++ ':' :: (value ++ '\n' :: rest)) := by
    rw [readWhitespaces_append_stop name ':' _ (by decide),
      readWhitespaces_append_stop (readWhitespaces name) ':' _ (by decide),
      readWhitespaces_idem]
  rw [headerLine_congr _ _ h1]
  exact headerLine_line (readWhitespaces name) value rest
    (fun y hy => hcolon y (mem_of_mem_readWhitespaces name y hy))
    (leadsWithWhitespace_readWhitespaces name) hnl hvis

theorem readWhitespaces_split (a : List Char) :
    ∃ pre, a = pre ++ readWhitespaces a ∧ ∀ c ∈ pre, isWhitespace c = true := by
  refine ⟨a.takeWhile isWhitespace, ?_, ?_⟩
  · exact (List.takeWhile_append_dropWhile isWhitespace a).symm
  · intro c hc
    exact List.mem_takeWhile_imp hc

theorem intercalate_head (sep a : List Char) (l : List (List Char)) :
    ∃ tail, List.intercalate sep (a :: l) = a ++ tail := by
  cases l with
  | nil => exact ⟨[], by simp [intercalate_single]⟩
  | cons b t => exact ⟨sep ++ List.intercalate sep (b :: t), by
      rw [intercalate_cons_cons, List.append_assoc]⟩

/-! ## Carriage returns -/

/-- The fields of the record of a successful `Parse`, from the nodes. -/
theorem Parse_ok_fields (b : List Char) (r : ResponseData)
    (h : Parse b = Run.returned (r, none)) :
    ∃ s r1, statusLineParser (NewReader b) = Run.returned (some (s, r1)) ∧
      r =
        { ProtocolVersion := "HTTP/".toList ++ s.semver
          StatusCode := s.statusCodeRaw
          StatusString := s.statusStringRaw
          OrderedHeaderKeys := (manyRun headerLine r1).1.map Prod.fst
          Headers := (manyRun headerLine r1).1.foldl (fun m h => mapSet m h.1 h.2) []
          Unparsed := (manyRun rawLine (manyRun headerLine r1).2).1 } := by
  obtain ⟨s, r1, hst, hr⟩ := Parse_ok_inv b r h
  refine ⟨s, r1, hst, ?_⟩
  rw [hr]
  simp [linesInterpreter_eq, headersInterpreter_eq, statusLineInterpreter, NewResponseData]


/-! ## Line endings -/

theorem head_toCRLF (r : List Char) : (toCRLF r).head? ≠ some '\n' := by
  cases r with
  | nil => simp [toCRLF]
  | cons d t =>
    by_cases hd : d = '\n'
    · simp [toCRLF, hd]
    · simp [toCRLF, hd]

/-- The reader's text of an input with the line ending `"\r\n"` is the input
with the line ending `"\n"`. -/
theorem NewReader_toCRLF (b : List Char) : NewReader (toCRLF b) = b := by
  induction b with
  | nil => rfl
  | cons c r ih =>
    by_cases hc : c = '\n'
    · subst hc
      have e : toCRLF ('\n' :: r) = '\r' :: '\n' :: toCRLF r := by simp [toCRLF]
      rw [e, NewReader_cons, if_pos ⟨rfl, rfl⟩, NewReader_cons_of_ne '\n' _ (by decide), ih]
    · have e : toCRLF (c :: r) = c :: toCRLF r := by simp [toCRLF, hc]
      rw [e, NewReader_cons, if_neg (fun h => head_toCRLF r h.2), ih]

/-! ## A status line that does not match -/

theorem matchNumeral_none (r : List Char) (h : startsWithDigit r = false) :
    matchNumeral r = none := by
  cases r with
  | nil => rfl
  | cons d t =>
    have hd : isDigit d = false := h
    have h0 : d ≠ '0' := by intro e; subst e; exact absurd hd (by decide)
    have h1 : ('1' ≤ d && d ≤ '9') = false := by
      by_contra hc
      have hc2 : ('1' ≤ d && d ≤ '9') = true := by simpa using hc
      simp only [Bool.and_eq_true, decide_eq_true_eq] at hc2
      have : isDigit d = true := by
        simp only [isDigit, Bool.and_eq_true, decide_eq_true_eq]
        exact ⟨le_trans (by decide) hc2.1, hc2.2⟩
      rw [hd] at this
      exact absurd this (by decide)
    simp [matchNumeral, h1, h0]

theorem Integer_none (r : List Char) (h : startsWithNumeral (readWhitespaces r) = false) :
    Integer r = Run.returned none := by
  have hu : matchNumeral (match readWhitespaces r with
      | '-' :: t => t
      | '+' :: t => t
      | _ => readWhitespaces r) = none := by
    apply matchNumeral_none
    unfold startsWithNumeral at h
    split
    · rename_i t heq; rw [heq] at h; exact h
    · rename_i t heq; rw [heq] at h; exact h
    · rename_i h1 h2
      split at h
      · rename_i t heq; exact absurd heq (h1 t)
      · rename_i t heq; exact absurd heq (h2 t)
      · exact h
  unfold Integer
  simp only [hu]

theorem Word_none (r : List Char) (h : ∀ x, readWhitespaces r ≠ "HTTP".toList ++ x) :
    Word "HTTP".toList r = none := by
  unfold Word
  have hp : ("HTTP".toList).isPrefixOf (readWhitespaces r) = false := by
    by_contra hc
    have hc2 : ("HTTP".toList).isPrefixOf (readWhitespaces r) = true := by simpa using hc
    obtain ⟨x, hx⟩ := List.isPrefixOf_iff_prefix.mp hc2
    exact h x hx.symm
  simp only [hp]
  rfl

theorem Word_some (r x : List Char) (h : readWhitespaces r = "HTTP".toList ++ x) :
    Word "HTTP".toList r = some ((), x) := by
  unfold Word
  simp only [h]
  rw [http_toList]
  simp [List.isPrefixOf]

theorem version_none (x : List Char)
    (h : ∀ c y, readWhitespaces x = '/' :: c :: y → c = ' ') :
    Regexp Pattern.protocolVersion false 1 x = none := by
  have hm : matchPattern Pattern.protocolVersion (readWhitespaces x) = none := by
    simp only [matchPattern]
    split
    · rename_i t ht
      cases t with
      | nil => simp
      | cons c y =>
        have hc := h c y ht
        subst hc
        simp [List.takeWhile, notChar]
    · rfl
  unfold Regexp
  simp only [Bool.false_eq_true, if_false, hm]

theorem version_some (x ver rest : List Char) (hx : readWhitespaces x = '/' :: (ver ++ rest))
    (hver : ∀ c ∈ ver, c ≠ ' ') (hne : ver ≠ []) (hrest : rest = [] ∨ ∃ y, rest = ' ' :: y) :
    Regexp Pattern.protocolVersion false 1 x = some (ver, rest) := by
  have htk : (ver ++ rest).takeWhile (notChar ' ') = ver := by
    rcases hrest with e | ⟨y, e⟩
    · subst e; rw [List.append_nil]; exact takeWhile_all _ (by simpa [notChar] using hver)
    · subst e
      exact takeWhile_append_stop ver ' ' y (by simpa [notChar] using hver) (by simp [notChar])
  have hdr : (ver ++ rest).dropWhile (notChar ' ') = rest := by
    rcases hrest with e | ⟨y, e⟩
    · subst e; rw [List.append_nil]; exact dropWhile_all _ (by simpa [notChar] using hver)
    · subst e
      exact dropWhile_append_stop ver ' ' y (by simpa [notChar] using hver) (by simp [notChar])
  unfold Regexp
  simp only [Bool.false_eq_true, if_false, hx, matchPattern, htk, hdr, hne]
  rfl

/-- The status line does not match when the token `HTTP`, the version or the
numeral is missing where the reader looks for it. -/
theorem statusLineParser_none (b : List Char)
    (h : (∀ x, readWhitespaces b ≠ "HTTP".toList ++ x) ∨
      (∃ x, readWhitespaces b = "HTTP".toList ++ x ∧
        ∀ c y, readWhitespaces x = '/' :: c :: y → c = ' ') ∨
      (∃ x ver rest, readWhitespaces b = "HTTP".toList ++ x ∧
        readWhitespaces x = '/' :: (ver ++ rest) ∧ (∀ c ∈ ver, c ≠ ' ') ∧
        (rest = [] ∨ ∃ y, rest = ' ' :: y) ∧
        startsWithNumeral (readWhitespaces rest) = false)) :
    statusLineParser b = Run.returned none := by
  unfold statusLineParser
  rcases h with h | ⟨x, h1, h2⟩ | ⟨x, ver, rest, h1, h2, h3, h4, h5⟩
  · rw [Word_none b h]
  · rw [Word_some b x h1]
    simp only
    rw [version_none x h2]
  · rw [Word_some b x h1]
    simp only
    by_cases hne : ver = []
    · rw [version_none x (by
        intro c y e
        rw [h2, hne, List.nil_append] at e
        rcases h4 with e4 | ⟨z, e4⟩
        · rw [e4] at e; simp at e
        · rw [e4] at e; simp only [List.cons.injEq, true_and] at e; exact e.1.symm)]
    · rw [version_some x ver rest h2 h3 hne h4]
      simp only
      rw [Integer_none rest h5]

/-! ## One header line -/

theorem evalHeaders_line (name value : List Char)
    (hcolon : ∀ y ∈ name, y ≠ ':') (hnl : ∀ y ∈ value, y ≠ '\n')
    (hvis : readWhitespaces value ≠ [])
    (hcr : hasCRLF (name ++ ':' :: (value ++ ['\n'])) = false) :
    evalHeaders (name ++ ':' :: (value ++ ['\n'])) =
      Run.returned ({ ProtocolVersion := [], StatusCode := 0, StatusString := [],
                      OrderedHeaderKeys := [readWhitespaces name],
                      Headers := [(readWhitespaces name, readWhitespaces value)],
                      Unparsed := [] }, none) := by
  have hl := headerLine_trimmed name value [] hcolon hnl hvis
  have hm := manyRun_some headerLine headerLine_consuming _ _ _ hl
  rw [manyRun_none headerLine [] headerLine_nil] at hm
  unfold evalHeaders Sentence noPanic
  rw [NewReader_of_noCRLF _ hcr]
  simp only [headersParser, Many, hm, End_nil, headersInterpreter_eq, NewResponseData,
    List.nil_append]
  rfl

/-! # The claims -/

/-- C1, counterexample: a status line and two header lines with one key and
different values, every line terminator-ended. `Parse` succeeds, but the
rendering shows the later value at both places, so the rendering plus a
terminator is not the input. -/
theorem C1_roundTrip_fails_on_duplicate_key :
    Parse "HTTP/1.1 200 OK\nA: 1\nA: 2\n".toList =
      Run.returned
        ({ ProtocolVersion := "HTTP/1.1".toList, StatusCode := 200, StatusString := "OK".toList,
           OrderedHeaderKeys := ["A".toList, "A".toList],
           Headers := [("A".toList, "2".toList)], Unparsed := [] }, none) ∧
    ToHTTP { ProtocolVersion := "HTTP/1.1".toList, StatusCode := 200, StatusString := "OK".toList,
             OrderedHeaderKeys := ["A".toList, "A".toList],
             Headers := [("A".toList, "2".toList)], Unparsed := [] } ++ ['\n'] =
      "HTTP/1.1 200 OK\nA: 2\nA: 2\n".toList ∧
    "HTTP/1.1 200 OK\nA: 2\nA: 2\n".toList ≠ "HTTP/1.1 200 OK\nA: 1\nA: 2\n".toList := by
  decide

/-- C1, amended: a status line `HTTP/v n t`, at least one header line
`name: value` and further lines without colon, every line terminator-ended
and no carriage return before a line terminator, parse without error and
render, plus one terminator, to the input. -/
theorem C1_roundTrip (v : List Char) (n : Nat) (t : List Char)
    (hs : List (List Char × List Char)) (ls : List (List Char))
    (hv : v ≠ []) (hsp : ∀ y ∈ v, y ≠ ' ') (hn : n ≤ maxInt)
    (ht : t ≠ []) (htw : leadsWithWhitespace t = false) (htnl : ∀ y ∈ t, y ≠ '\n')
    (hne : hs ≠ [])
    (hname : ∀ h ∈ hs, (∀ y ∈ h.1, y ≠ ':') ∧ leadsWithWhitespace h.1 = false)
    (hvalue : ∀ h ∈ hs, h.2 ≠ [] ∧ leadsWithWhitespace h.2 = false ∧ ∀ y ∈ h.2, y ≠ '\n')
    (hfun : ∀ p ∈ hs, ∀ q ∈ hs, p.1 = q.1 → p.2 = q.2)
    (hnl : ∀ l ∈ ls, ∀ c ∈ l, c ≠ '\n') (hcolon : ∀ l ∈ ls, ∀ c ∈ l, c ≠ ':')
    (hcr : hasCRLF (responseText v n t (spacedHeaders hs) ls) = false) :
    ∃ r, Parse (responseText v n t (spacedHeaders hs) ls) = Run.returned (r, none) ∧
      ToHTTP r ++ ['\n'] = responseText v n t (spacedHeaders hs) ls := by
  have hclean : readWhitespaces t = t := readWhitespaces_clean t htw
  have hP := Parse_shape v n t (spacedHeaders hs) ls hv hsp hn htnl (by rw [hclean]; exact ht)
    (spacedHeaders_shape hs hname hvalue) hnl hcolon hcr
  have hnodes := headerNodes_spacedHeaders hs (fun h hh => (hvalue h hh).2.1)
  have hkeys : (spacedHeaders hs).map Prod.fst = hs.map Prod.fst := by
    simp [spacedHeaders, List.map_map, Function.comp]
  have hcap : capturedLines (spacedHeaders hs) ls = ls := by
    cases hs with
    | nil => exact absurd rfl hne
    | cons h u => rfl
  rw [hclean, hnodes, hkeys, hcap] at hP
  refine ⟨_, hP, ?_⟩
  rw [render_terminated _ n t hs ls (by simp [httpSlash_toList]) hfun]
  simp [responseText, statusLineText]

/-- C1, witness: the end-to-end response of the specification. -/
theorem C1_roundTrip_witness :
    responseText "1.1".toList 200 "OK".toList
        (spacedHeaders [("Content-Type".toList, "text/html; charset=UTF-8".toList),
          ("Connection".toList, "close".toList)])
        ["".toList, "<html></html>".toList] =
      "HTTP/1.1 200 OK\nContent-Type: text/html; charset=UTF-8\nConnection: close\n\n<html></html>\n".toList ∧
    ∃ r, Parse (responseText "1.1".toList 200 "OK".toList
        (spacedHeaders [("Content-Type".toList, "text/html; charset=UTF-8".toList),
          ("Connection".toList, "close".toList)])
        ["".toList, "<html></html>".toList]) = Run.returned (r, none) ∧
      ToHTTP r ++ ['\n'] =
        responseText "1.1".toList 200 "OK".toList
          (spacedHeaders [("Content-Type".toList, "text/html; charset=UTF-8".toList),
            ("Connection".toList, "close".toList)])
          ["".toList, "<html></html>".toList] :=
  ⟨by decide,
   C1_roundTrip "1.1".toList 200 "OK".toList
    [("Content-Type".toList, "text/html; charset=UTF-8".toList),
      ("Connection".toList, "close".toList)]
    ["".toList, "<html></html>".toList]
    (by decide) (by decide) (by decide) (by decide) (by decide) (by decide) (by decide)
    (by decide) (by decide) (by decide) (by decide) (by decide) (by decide)⟩

/-- C2, counterexample: with the text `" OK"` after the separator the
recognizer stores `"OK"`: the leading whitespace of the text is dropped. -/
theorem C2_statusString_is_trimmed :
    statusLineText "1.1".toList 200 " OK".toList = "HTTP/1.1 200  OK".toList ∧
    evalStatusLine "HTTP/1.1 200  OK".toList =
      Run.returned
        ({ ProtocolVersion := "HTTP/1.1".toList, StatusCode := 200, StatusString := "OK".toList,
           OrderedHeaderKeys := [], Headers := [], Unparsed := [] }, none) ∧
    "OK".toList ≠ " OK".toList := by
  decide

/-- C2, amended: on a first line `HTTP/v n t` (single blanks, `v` non-empty
without blank, `n` a decimal numeral that fits an `int`, `t` without line
terminator, no carriage return before a line feed in the line) the
status-line recognizer succeeds with `ProtocolVersion = HTTP/v`,
`StatusCode = n` and `StatusString = t` less its leading blanks, tabs,
carriage returns and line feeds; trailing whitespace is kept. -/
theorem C2_statusLine (v : List Char) (n : Nat) (t : List Char)
    (hv : v ≠ []) (hsp : ∀ y ∈ v, y ≠ ' ') (hn : n ≤ maxInt) (htnl : ∀ y ∈ t, y ≠ '\n')
    (hcr : hasCRLF (statusLineText v n t) = false) :
    evalStatusLine (statusLineText v n t) =
      Run.returned
        ({ ProtocolVersion := "HTTP/".toList ++ v, StatusCode := (n : Int),
           StatusString := readWhitespaces t,
           OrderedHeaderKeys := [], Headers := [], Unparsed := [] }, none) := by
  have h := statusLineParser_line v n t [] hv hsp hn htnl (Or.inl rfl)
  rw [List.append_nil] at h
  unfold evalStatusLine Sentence
  rw [NewReader_of_noCRLF _ hcr]
  simp only [statusLineText, h, End_nil]
  rfl

/-- C2, witness: the status line of `TestStatusCode`. -/
theorem C2_statusLine_witness :
    evalStatusLine "HTTP/1.1 200 OK".toList =
      Run.returned
        ({ ProtocolVersion := "HTTP/1.1".toList, StatusCode := 200, StatusString := "OK".toList,
           OrderedHeaderKeys := [], Headers := [], Unparsed := [] }, none) :=
  C2_statusLine "1.1".toList 200 "OK".toList (by decide) (by decide) (by decide) (by decide)
    (by decide)

/-- C3, counterexample: the first line is blank and so lacks the token
`HTTP`, yet `Parse` returns no error: the reader skips it as whitespace. And
a status code that does not fit an `int` is no valid integer, yet `Parse`
returns neither error nor record: the program panics. -/
theorem C3_blank_first_line_parses :
    Parse "\nHTTP/1.1 200 OK\n".toList =
      Run.returned
        ({ ProtocolVersion := "HTTP/1.1".toList, StatusCode := 200, StatusString := "OK".toList,
           OrderedHeaderKeys := [], Headers := [], Unparsed := ["".toList] }, none) ∧
    Parse "HTTP/1.1 9223372036854775808 OK\n".toList = Run.panicked := by
  decide

/-- C3, amended: when the input, less its leading whitespace, does not start
with the token `HTTP`, or the token is not followed, whitespace skipped, by
`/` and a character other than the blank, or the version is not followed,
whitespace skipped, by an optional sign and a decimal digit, `Parse` returns
an error and the record of `NewResponseData`: the three status fields are at
their zero values. -/
theorem C3_malformed_status_line (b : List Char)
    (h : (∀ x, readWhitespaces (NewReader b) ≠ "HTTP".toList ++ x) ∨
      (∃ x, readWhitespaces (NewReader b) = "HTTP".toList ++ x ∧
        ∀ c y, readWhitespaces x = '/' :: c :: y → c = ' ') ∨
      (∃ x ver rest, readWhitespaces (NewReader b) = "HTTP".toList ++ x ∧
        readWhitespaces x = '/' :: (ver ++ rest) ∧ (∀ c ∈ ver, c ≠ ' ') ∧
        (rest = [] ∨ ∃ y, rest = ' ' :: y) ∧
        startsWithNumeral (readWhitespaces rest) = false)) :
    Parse b = Run.returned (NewResponseData, some ReaderError.mk) ∧
    NewResponseData.ProtocolVersion = [] ∧ NewResponseData.StatusCode = 0 ∧
    NewResponseData.StatusString = [] := by
  have hs := statusLineParser_none (NewReader b) h
  refine ⟨?_, rfl, rfl, rfl⟩
  unfold Parse Sentence httpResponseParser
  simp only [hs]

/-- C3, witness: an input that does not start with `HTTP`, one with an empty
version and one whose status code is not a number. -/
theorem C3_malformed_status_line_witness :
    Parse "XTTP/1.1 200 OK\n".toList = Run.returned (NewResponseData, some ReaderError.mk) ∧
    Parse "HTTP/ 200 OK\n".toList = Run.returned (NewResponseData, some ReaderError.mk) ∧
    Parse "HTTP/1.1 abc OK\n".toList = Run.returned (NewResponseData, some ReaderError.mk) :=
  ⟨(C3_malformed_status_line "XTTP/1.1 200 OK\n".toList
      (Or.inl (fun x hx =>
        absurd (show some 'X' = some 'H' from congrArg List.head? hx) (by decide)))).1,
   (C3_malformed_status_line "HTTP/ 200 OK\n".toList
      (Or.inr (Or.inl ⟨"/ 200 OK\n".toList, by decide, fun c y e =>
        (List.cons.inj (List.cons.inj e).2).1.symm⟩))).1,
   (C3_malformed_status_line "HTTP/1.1 abc OK\n".toList
      (Or.inr (Or.inr ⟨"/1.1 abc OK\n".toList, "1.1".toList, " abc OK\n".toList,
        by decide, by decide, by decide, Or.inr ⟨"abc OK\n".toList, rfl⟩, by decide⟩))).1⟩

/-- C4, counterexample: the first line has the shape of a status line, the
last line is not terminator-ended, and `Parse` returns an error. -/
theorem C4_unterminated_last_line_fails :
    Parse "HTTP/1.1 200 OK\nfoo".toList =
      Run.returned (NewResponseData, some ReaderError.mk) := by
  decide

/-- C4, amended: an input that starts with `HTTP/v n` and a blank (`v`
non-empty without blank, `n` a decimal numeral that fits an `int`) and ends
with a line terminator parses without error, whatever stands between. -/
theorem C4_terminated_input_parses (v : List Char) (n : Nat) (x : List Char)
    (hv : v ≠ []) (hsp : ∀ y ∈ v, y ≠ ' ') (hn : n ≤ maxInt) :
    ∃ r, Parse (statusLineText v n (x ++ ['\n'])) = Run.returned (r, none) :=
  Parse_terminated v n x hv hsp hn

/-- C4, witness: the counterexample's input with its last line terminated. -/
theorem C4_terminated_input_parses_witness :
    statusLineText "1.1".toList 200 ("OK\nfoo".toList ++ ['\n']) =
      "HTTP/1.1 200 OK\nfoo\n".toList ∧
    ∃ r, Parse (statusLineText "1.1".toList 200 ("OK\nfoo".toList ++ ['\n'])) =
      Run.returned (r, none) :=
  ⟨by decide,
   C4_terminated_input_parses "1.1".toList 200 "OK\nfoo".toList
    (by decide) (by decide) (by decide)⟩

/-- C5, counterexample: two header lines, the first with an empty value;
the recognizer yields one key, whose value is the whole second line. -/
theorem C5_empty_value_takes_next_line :
    evalHeaders "A:\nB: c\n".toList =
      Run.returned
        ({ ProtocolVersion := [], StatusCode := 0, StatusString := [],
           OrderedHeaderKeys := ["A".toList],
           Headers := [("A".toList, "B: c".toList)], Unparsed := [] }, none) := by
  decide

/-- C5, amended: for header lines `name:value`, each followed by one line
terminator, with names free of colon and of leading whitespace, values free
of line terminators and not blank throughout, and no carriage return before
a line terminator, the header-block recognizer succeeds, `OrderedHeaderKeys`
is the list of the names in input order, duplicates kept, and
`Headers[name]` is the value, less its leading whitespace, of the last line
carrying that name; two lines with one key give two keys and a map of size
one that holds the later value. -/
theorem C5_header_accumulation (hs : List (List Char × List Char))
    (hname : ∀ h ∈ hs, (∀ y ∈ h.1, y ≠ ':') ∧ leadsWithWhitespace h.1 = false)
    (hvalue : ∀ h ∈ hs, (∀ y ∈ h.2, y ≠ '\n') ∧ readWhitespaces h.2 ≠ [])
    (hcr : hasCRLF (headerLines hs) = false) :
    ∃ r, evalHeaders (headerLines hs) = Run.returned (r, none) ∧
      r.OrderedHeaderKeys = hs.map Prod.fst ∧
      (∀ name, mapGet r.Headers name = lastValue name (headerNodes hs)) ∧
      (∀ k v1 v2, hs = [(k, v1), (k, v2)] →
        r.OrderedHeaderKeys.length = 2 ∧ r.Headers = [(k, readWhitespaces v2)]) := by
  have hshape : ∀ h ∈ hs, HeaderShape h := fun h hh =>
    ⟨(hname h hh).1, (hname h hh).2, (hvalue h hh).1, (hvalue h hh).2⟩
  refine ⟨_, evalHeaders_headerLines hs hshape hcr, rfl, ?_, ?_⟩
  · intro name
    simp only
    rw [mapGet_foldl]
    rfl
  · intro k v1 v2 e
    subst e
    simp [headerNodes, mapSet]

/-- C5, witness: the duplicate key of the specification, `A: 1` then `A: 2`. -/
theorem C5_header_accumulation_witness :
    headerLines [("A".toList, " 1".toList), ("A".toList, " 2".toList)] = "A: 1\nA: 2\n".toList ∧
    ∃ r, evalHeaders (headerLines [("A".toList, " 1".toList), ("A".toList, " 2".toList)]) =
        Run.returned (r, none) ∧
      r.OrderedHeaderKeys = ["A".toList, "A".toList] ∧
      (∀ name, mapGet r.Headers name =
        lastValue name (headerNodes [("A".toList, " 1".toList), ("A".toList, " 2".toList)])) ∧
      (∀ k v1 v2, [("A".toList, " 1".toList), ("A".toList, " 2".toList)] = [(k, v1), (k, v2)] →
        r.OrderedHeaderKeys.length = 2 ∧ r.Headers = [(k, readWhitespaces v2)]) :=
  ⟨by decide,
   C5_header_accumulation [("A".toList, " 1".toList), ("A".toList, " 2".toList)]
      (by decide) (by decide) (by decide)⟩

/-- C6, counterexample: the line `foo` contains no colon and is consumed as
part of a header name; two keys are appended though one line with a colon
follows the status line directly, and nothing is left for raw-line capture. -/
theorem C6_line_without_colon_consumed :
    Parse "HTTP/1.1 200 OK\nA: b\nfoo\nbar:baz\n".toList =
      Run.returned
        ({ ProtocolVersion := "HTTP/1.1".toList, StatusCode := 200, StatusString := "OK".toList,
           OrderedHeaderKeys := ["A".toList, "foo\nbar".toList],
           Headers := [("A".toList, "b".toList), ("foo\nbar".toList, "baz".toList)],
           Unparsed := [] }, none) := by
  decide

/-- C6, amended: header recognition stops where the rest of the input holds
no colon. For a status line, `k` header lines and further terminator-ended
lines without colon, no carriage return before a line terminator, exactly
the `k` names are appended to `OrderedHeaderKeys` and the further lines are
all left whole to raw-line capture: they are the end of `Unparsed`, and all
of it when `k > 0`. -/
theorem C6_headers_stop (v : List Char) (n : Nat) (t : List Char)
    (hs : List (List Char × List Char)) (ls : List (List Char))
    (hv : v ≠ []) (hsp : ∀ y ∈ v, y ≠ ' ') (hn : n ≤ maxInt)
    (htnl : ∀ y ∈ t, y ≠ '\n') (htvis : readWhitespaces t ≠ [])
    (hname : ∀ h ∈ hs, (∀ y ∈ h.1, y ≠ ':') ∧ leadsWithWhitespace h.1 = false)
    (hvalue : ∀ h ∈ hs, (∀ y ∈ h.2, y ≠ '\n') ∧ readWhitespaces h.2 ≠ [])
    (hnl : ∀ l ∈ ls, ∀ c ∈ l, c ≠ '\n') (hcolon : ∀ l ∈ ls, ∀ c ∈ l, c ≠ ':')
    (hcr : hasCRLF (responseText v n t hs ls) = false) :
    ∃ r, Parse (responseText v n t hs ls) = Run.returned (r, none) ∧
      r.OrderedHeaderKeys = hs.map Prod.fst ∧
      r.OrderedHeaderKeys.length = hs.length ∧
      ∃ pre, r.Unparsed = pre ++ ls ∧ (hs ≠ [] → pre = []) := by
  have hshape : ∀ h ∈ hs, HeaderShape h := fun h hh =>
    ⟨(hname h hh).1, (hname h hh).2, (hvalue h hh).1, (hvalue h hh).2⟩
  refine ⟨_, Parse_shape v n t hs ls hv hsp hn htnl htvis hshape hnl hcolon hcr, rfl,
    by simp, ?_⟩
  cases hs with
  | nil => exact ⟨[[]], rfl, fun h => absurd rfl h⟩
  | cons h u => exact ⟨[], rfl, fun _ => rfl⟩

/-- C6, witness: one header line, then a blank line and a body line. -/
theorem C6_headers_stop_witness :
    responseText "1.1".toList 200 "OK".toList [("A".toList, " b".toList)]
        ["".toList, "body".toList] = "HTTP/1.1 200 OK\nA: b\n\nbody\n".toList ∧
    ∃ r, Parse (responseText "1.1".toList 200 "OK".toList [("A".toList, " b".toList)]
        ["".toList, "body".toList]) = Run.returned (r, none) ∧
      r.OrderedHeaderKeys = ["A".toList] ∧
      r.OrderedHeaderKeys.length = 1 ∧
      ∃ pre, r.Unparsed = pre ++ ["".toList, "body".toList] ∧
        ([("A".toList, " b".toList)] ≠ [] → pre = []) :=
  ⟨by decide,
   C6_headers_stop "1.1".toList 200 "OK".toList [("A".toList, " b".toList)]
      ["".toList, "body".toList]
      (by decide) (by decide) (by decide) (by decide) (by decide) (by decide) (by decide)
      (by decide) (by decide) (by decide)⟩

/-- C7, the code at the failing input: a blank line after the status line
and one body line give three entries, two of them empty. -/
theorem C7_empty_header_block_extra_entry :
    Parse "HTTP/1.1 200 OK\n\nbody\n".toList =
      Run.returned
        ({ ProtocolVersion := "HTTP/1.1".toList, StatusCode := 200, StatusString := "OK".toList,
           OrderedHeaderKeys := [], Headers := [],
           Unparsed := ["".toList, "".toList, "body".toList] }, none) := by
  decide

/-- C8, counterexample: conventional shape with the body line `foo:bar`;
the blank line is skipped, the body line becomes a header and `Unparsed`
stays empty. -/
theorem C8_body_line_with_colon_becomes_header :
    Parse "HTTP/1.1 200 OK\nA: b\n\nfoo:bar\n".toList =
      Run.returned
        ({ ProtocolVersion := "HTTP/1.1".toList, StatusCode := 200, StatusString := "OK".toList,
           OrderedHeaderKeys := ["A".toList, "foo".toList],
           Headers := [("A".toList, "b".toList), ("foo".toList, "bar".toList)],
           Unparsed := [] }, none) := by
  decide

/-- C8, amended: for a status line, one or more header lines, one blank
line and terminator-ended body lines none of which holds a colon, no
carriage return before a line terminator, `Parse` succeeds and `Unparsed` is
the blank separator followed by the body lines, each less its terminator. -/
theorem C8_conventional_shape (v : List Char) (n : Nat) (t : List Char)
    (hs : List (List Char × List Char)) (body : List (List Char))
    (hv : v ≠ []) (hsp : ∀ y ∈ v, y ≠ ' ') (hn : n ≤ maxInt)
    (htnl : ∀ y ∈ t, y ≠ '\n') (htvis : readWhitespaces t ≠ [])
    (hne : hs ≠ [])
    (hname : ∀ h ∈ hs, (∀ y ∈ h.1, y ≠ ':') ∧ leadsWithWhitespace h.1 = false)
    (hvalue : ∀ h ∈ hs, (∀ y ∈ h.2, y ≠ '\n') ∧ readWhitespaces h.2 ≠ [])
    (hnl : ∀ l ∈ body, ∀ c ∈ l, c ≠ '\n') (hcolon : ∀ l ∈ body, ∀ c ∈ l, c ≠ ':')
    (hcr : hasCRLF (responseText v n t hs ([] :: body)) = false) :
    ∃ r, Parse (responseText v n t hs ([] :: body)) = Run.returned (r, none) ∧
      r.Unparsed = [] :: body := by
  have hshape : ∀ h ∈ hs, HeaderShape h := fun h hh =>
    ⟨(hname h hh).1, (hname h hh).2, (hvalue h hh).1, (hvalue h hh).2⟩
  have hnl2 : ∀ l ∈ ([] : List Char) :: body, ∀ c ∈ l, c ≠ '\n' := by
    intro l hl
    rcases List.mem_cons.mp hl with e | e
    · rw [e]; intro c hc; simp at hc
    · exact hnl l e
  have hcolon2 : ∀ l ∈ ([] : List Char) :: body, ∀ c ∈ l, c ≠ ':' := by
    intro l hl
    rcases List.mem_cons.mp hl with e | e
    · rw [e]; intro c hc; simp at hc
    · exact hcolon l e
  refine ⟨_, Parse_shape v n t hs ([] :: body) hv hsp hn htnl htvis hshape hnl2 hcolon2 hcr, ?_⟩
  cases hs with
  | nil => exact absurd rfl hne
  | cons h u => rfl

/-- C8, witness: the end-to-end response of the specification. -/
theorem C8_conventional_shape_witness :
    responseText "1.1".toList 200 "OK".toList
        [("Content-Type".toList, " text/html; charset=UTF-8".toList),
          ("Connection".toList, " close".toList)]
        ["".toList, "<html></html>".toList] =
      "HTTP/1.1 200 OK\nContent-Type: text/html; charset=UTF-8\nConnection: close\n\n<html></html>\n".toList ∧
    ∃ r, Parse (responseText "1.1".toList 200 "OK".toList
        [("Content-Type".toList, " text/html; charset=UTF-8".toList),
          ("Connection".toList, " close".toList)]
        ["".toList, "<html></html>".toList]) = Run.returned (r, none) ∧
      r.Unparsed = ["".toList, "<html></html>".toList] :=
  ⟨by decide,
   C8_conventional_shape "1.1".toList 200 "OK".toList
      [("Content-Type".toList, " text/html; charset=UTF-8".toList),
        ("Connection".toList, " close".toList)]
      ["<html></html>".toList]
      (by decide) (by decide) (by decide) (by decide) (by decide) (by decide) (by decide)
      (by decide) (by decide) (by decide) (by decide)⟩

/-- C9, counterexample: two lines that end with a carriage return, each
followed by one line terminator. The reader drops the carriage returns:
`Unparsed` is `a`, `b`, and the rendering plus a terminator is not the input. -/
theorem C9_carriage_return_before_terminator_is_lost :
    terminated ["a\r".toList, "b\r".toList] = "a\r\nb\r\n".toList ∧
    evalLines "a\r\nb\r\n".toList =
      Run.returned
        ({ ProtocolVersion := [], StatusCode := 0, StatusString := [],
           OrderedHeaderKeys := [], Headers := [],
           Unparsed := ["a".toList, "b".toList] }, none) ∧
    ToHTTP { ProtocolVersion := [], StatusCode := 0, StatusString := [],
             OrderedHeaderKeys := [], Headers := [],
             Unparsed := ["a".toList, "b".toList] } ++ ['\n'] = "a\nb\n".toList ∧
    "a\nb\n".toList ≠ "a\r\nb\r\n".toList := by
  decide

/-- C9, amended: on one or more terminator-ended lines free of line
terminators, none of them ending with a carriage return, the raw-line
recognizer, run alone on a fresh record, succeeds, sets `Unparsed` to the
lines in order, and the rendering plus one terminator is the input. -/
theorem C9_rawLines_roundTrip (ls : List (List Char)) (hne : ls ≠ [])
    (hnl : ∀ l ∈ ls, ∀ c ∈ l, c ≠ '\n') (hcr : hasCRLF (terminated ls) = false) :
    evalLines (terminated ls) =
      Run.returned
        ({ ProtocolVersion := [], StatusCode := 0, StatusString := [],
           OrderedHeaderKeys := [], Headers := [], Unparsed := ls }, none) ∧
    ToHTTP { ProtocolVersion := [], StatusCode := 0, StatusString := [],
             OrderedHeaderKeys := [], Headers := [], Unparsed := ls } ++ ['\n'] =
      terminated ls := by
  have h := manyRun_rawLine_terminated ls hnl
  constructor
  · unfold evalLines Sentence noPanic
    rw [NewReader_of_noCRLF _ hcr]
    simp only [linesParser, Many, h, End_nil, linesInterpreter_eq, NewResponseData,
      List.nil_append]
  · rw [ToHTTP_eq_specToHTTP]
    unfold specToHTTP specLines
    simp only [ne_eq, not_true_eq_false, if_false, List.map_nil, List.nil_append]
    exact intercalate_terminated ls hne

/-- C9, witness: the file of `TestParseLines`, read as raw lines. -/
theorem C9_rawLines_roundTrip_witness :
    terminated ["HTTP/1.1 200 OK".toList, "Connection: close".toList, "".toList,
        "<html></html>".toList] =
      "HTTP/1.1 200 OK\nConnection: close\n\n<html></html>\n".toList ∧
    evalLines (terminated ["HTTP/1.1 200 OK".toList, "Connection: close".toList, "".toList,
        "<html></html>".toList]) =
      Run.returned
        ({ ProtocolVersion := [], StatusCode := 0, StatusString := [],
           OrderedHeaderKeys := [], Headers := [],
           Unparsed := ["HTTP/1.1 200 OK".toList, "Connection: close".toList, "".toList,
             "<html></html>".toList] }, none) ∧
    ToHTTP { ProtocolVersion := [], StatusCode := 0, StatusString := [],
             OrderedHeaderKeys := [], Headers := [],
             Unparsed := ["HTTP/1.1 200 OK".toList, "Connection: close".toList, "".toList,
               "<html></html>".toList] } ++ ['\n'] =
      terminated ["HTTP/1.1 200 OK".toList, "Connection: close".toList, "".toList,
        "<html></html>".toList] :=
  ⟨by decide,
   C9_rawLines_roundTrip ["HTTP/1.1 200 OK".toList, "Connection: close".toList, "".toList,
      "<html></html>".toList] (by decide) (by decide) (by decide)⟩

/-- C10: for every record, `ToHTTP` is the rendering of the specification:
the status line if `ProtocolVersion` is not empty, then one line `k: Headers[k]`
for each key of `OrderedHeaderKeys` in order, then `Unparsed`, joined by
single line terminators with none at the end; the empty record renders to
the empty string. -/
theorem C10_serializer_reference (r : ResponseData) :
    ToHTTP r = specToHTTP r ∧ ToHTTP NewResponseData = [] :=
  ⟨ToHTTP_eq_specToHTTP r, rfl⟩

/-- C11, counterexample: two lines carry the key `k`, the first with the
value `1`, the second with the empty value. The second is not matched as a
header (its terminator is skipped as whitespace before the value and then
missing), so the rendering shows `k: 1` at the first position and the second
line as a raw line. -/
theorem C11_second_line_with_empty_value :
    Parse "HTTP/1.1 200 OK\nk: 1\nk:\n".toList =
      Run.returned
        ({ ProtocolVersion := "HTTP/1.1".toList, StatusCode := 200, StatusString := "OK".toList,
           OrderedHeaderKeys := ["k".toList],
           Headers := [("k".toList, "1".toList)],
           Unparsed := ["k:".toList] }, none) ∧
    ToHTTP { ProtocolVersion := "HTTP/1.1".toList, StatusCode := 200, StatusString := "OK".toList,
             OrderedHeaderKeys := ["k".toList],
             Headers := [("k".toList, "1".toList)],
             Unparsed := ["k:".toList] } = "HTTP/1.1 200 OK\nk: 1\nk:".toList := by
  decide

/-- C11, amended: for a status line, two header lines `k: v1` and `k: v2`
with one key and non-empty values, and further lines without colon, every
line terminator-ended and no carriage return before a line terminator, the
rendering of the parsed record shows two header lines for `k`, both with
`v2`: with one more terminator it is the input with `v2` in place of `v1`,
and so it is not the input when the values differ. -/
theorem C11_duplicate_key_renders_last (v : List Char) (n : Nat) (t k v1 v2 : List Char)
    (ls : List (List Char))
    (hv : v ≠ []) (hsp : ∀ y ∈ v, y ≠ ' ') (hn : n ≤ maxInt)
    (ht : t ≠ []) (htw : leadsWithWhitespace t = false) (htnl : ∀ y ∈ t, y ≠ '\n')
    (hk : (∀ y ∈ k, y ≠ ':') ∧ leadsWithWhitespace k = false)
    (h1 : v1 ≠ [] ∧ leadsWithWhitespace v1 = false ∧ ∀ y ∈ v1, y ≠ '\n')
    (h2 : v2 ≠ [] ∧ leadsWithWhitespace v2 = false ∧ ∀ y ∈ v2, y ≠ '\n')
    (hnl : ∀ l ∈ ls, ∀ c ∈ l, c ≠ '\n') (hcolon : ∀ l ∈ ls, ∀ c ∈ l, c ≠ ':')
    (hcr : hasCRLF (responseText v n t (spacedHeaders [(k, v1), (k, v2)]) ls) = false) :
    ∃ r, Parse (responseText v n t (spacedHeaders [(k, v1), (k, v2)]) ls) =
        Run.returned (r, none) ∧
      ToHTTP r ++ ['\n'] = responseText v n t (spacedHeaders [(k, v2), (k, v2)]) ls ∧
      (v1 ≠ v2 →
        ToHTTP r ++ ['\n'] ≠ responseText v n t (spacedHeaders [(k, v1), (k, v2)]) ls) := by
  have hclean : readWhitespaces t = t := readWhitespaces_clean t htw
  have hname : ∀ h ∈ [(k, v1), (k, v2)],
      (∀ y ∈ h.1, y ≠ ':') ∧ leadsWithWhitespace h.1 = false := by
    intro h hh
    simp only [List.mem_cons, List.mem_singleton, List.not_mem_nil, or_false] at hh
    rcases hh with e | e <;> (rw [e]; exact hk)
  have hvalue : ∀ h ∈ [(k, v1), (k, v2)],
      h.2 ≠ [] ∧ leadsWithWhitespace h.2 = false ∧ ∀ y ∈ h.2, y ≠ '\n' := by
    intro h hh
    simp only [List.mem_cons, List.mem_singleton, List.not_mem_nil, or_false] at hh
    rcases hh with e | e
    · rw [e]; exact h1
    · rw [e]; exact h2
  have hP := Parse_shape v n t (spacedHeaders [(k, v1), (k, v2)]) ls hv hsp hn htnl
    (by rw [hclean]; exact ht) (spacedHeaders_shape _ hname hvalue) hnl hcolon hcr
  have hnodes := headerNodes_spacedHeaders [(k, v1), (k, v2)] (fun h hh => (hvalue h hh).2.1)
  have hkeys : (spacedHeaders [(k, v1), (k, v2)]).map Prod.fst =
      [(k, v1), (k, v2)].map Prod.fst := rfl
  have hcap : capturedLines (spacedHeaders [(k, v1), (k, v2)]) ls = ls := rfl
  rw [hclean, hnodes, hkeys, hcap] at hP
  have hlast : lastValues [(k, v1), (k, v2)] = [(k, v2), (k, v2)] := by
    simp [lastValues, lastValue]
  have hrender :
      ToHTTP
        { ProtocolVersion := "HTTP/".toList ++ v, StatusCode := (n : Int),
          StatusString := t, OrderedHeaderKeys := [(k, v1), (k, v2)].map Prod.fst,
          Headers := [(k, v1), (k, v2)].foldl (fun m h => mapSet m h.1 h.2) [],
          Unparsed := ls } ++ ['\n'] =
      responseText v n t (spacedHeaders [(k, v2), (k, v2)]) ls := by
    rw [render_lastValues _ n t _ ls (by simp [httpSlash_toList]), hlast]
    simp [responseText, statusLineText]
  refine ⟨_, hP, hrender, ?_⟩
  intro hne hcontra
  rw [hrender] at hcontra
  apply hne
  simp only [responseText, spacedHeaders, List.map_cons, List.map_nil, headerLines,
    List.append_cancel_left_eq, List.cons.injEq, true_and, List.append_assoc,
    List.cons_append] at hcontra
  exact (List.append_cancel_right hcontra).symm

/-- C11, witness: the key `A` with the values `1` and `2`. -/
theorem C11_duplicate_key_renders_last_witness :
    responseText "1.1".toList 200 "OK".toList
        (spacedHeaders [("A".toList, "1".toList), ("A".toList, "2".toList)]) [] =
      "HTTP/1.1 200 OK\nA: 1\nA: 2\n".toList ∧
    responseText "1.1".toList 200 "OK".toList
        (spacedHeaders [("A".toList, "2".toList), ("A".toList, "2".toList)]) [] =
      "HTTP/1.1 200 OK\nA: 2\nA: 2\n".toList ∧
    ∃ r, Parse (responseText "1.1".toList 200 "OK".toList
        (spacedHeaders [("A".toList, "1".toList), ("A".toList, "2".toList)]) []) =
        Run.returned (r, none) ∧
      ToHTTP r ++ ['\n'] = responseText "1.1".toList 200 "OK".toList
        (spacedHeaders [("A".toList, "2".toList), ("A".toList, "2".toList)]) [] ∧
      ("1".toList ≠ "2".toList →
        ToHTTP r ++ ['\n'] ≠ responseText "1.1".toList 200 "OK".toList
          (spacedHeaders [("A".toList, "1".toList), ("A".toList, "2".toList)]) []) :=
  ⟨by decide, by decide,
   C11_duplicate_key_renders_last "1.1".toList 200 "OK".toList "A".toList "1".toList
      "2".toList [] (by decide) (by decide) (by decide) (by decide) (by decide) (by decide)
      (by decide) (by decide) (by decide) (by decide) (by decide) (by decide)⟩

/-- C12: the record that `Parse` returns, with or without error, has every
key of `OrderedHeaderKeys` in `Headers`, every key of `Headers` in
`OrderedHeaderKeys`, at least as many ordered keys as map entries, and as
many exactly when no key is repeated. -/
theorem C12_record_invariant (b : List Char) (r : ResponseData) (e : Option ReaderError)
    (h : Parse b = Run.returned (r, e)) :
    (∀ k ∈ r.OrderedHeaderKeys, k ∈ r.Headers.map Prod.fst) ∧
    (∀ k ∈ r.Headers.map Prod.fst, k ∈ r.OrderedHeaderKeys) ∧
    r.Headers.length ≤ r.OrderedHeaderKeys.length ∧
    (r.OrderedHeaderKeys.length = r.Headers.length ↔ r.OrderedHeaderKeys.Nodup) := by
  have key : KeysAgree r.OrderedHeaderKeys r.Headers := by
    rcases Parse_cases b with hp | hp | ⟨node, _, hp⟩
    · rw [hp] at h; exact absurd h (by simp)
    · rw [hp] at h
      simp only [Run.returned.injEq, Prod.mk.injEq] at h
      rw [← h.1]; exact KeysAgree_nil
    · rw [hp] at h
      simp only [Run.returned.injEq, Prod.mk.injEq] at h
      rw [← h.1, httpResponseInterpreter_eq]
      have := KeysAgree_foldl node.headers [] [] KeysAgree_nil
      simpa using this
  obtain ⟨_, h2, h3, h4⟩ := key
  exact ⟨fun k hk => (h2 k).mp hk, fun k hk => (h2 k).mpr hk, h3,
    ⟨fun e => h4.mp e.symm, fun e => (h4.mpr e).symm⟩⟩

/-- C12, witness: a response with a repeated key: two ordered keys, one map
entry. -/
theorem C12_record_invariant_witness :
    Parse "HTTP/1.1 200 OK\nA: 1\nA: 2\n".toList =
      Run.returned
        ({ ProtocolVersion := "HTTP/1.1".toList, StatusCode := 200, StatusString := "OK".toList,
           OrderedHeaderKeys := ["A".toList, "A".toList],
           Headers := [("A".toList, "2".toList)], Unparsed := [] }, none) ∧
    [("A".toList, "2".toList)].length ≤ ["A".toList, "A".toList].length ∧
    (["A".toList, "A".toList].length = [("A".toList, "2".toList)].length ↔
      ["A".toList, "A".toList].Nodup) :=
  ⟨by decide,
   (C12_record_invariant "HTTP/1.1 200 OK\nA: 1\nA: 2\n".toList
      { ProtocolVersion := "HTTP/1.1".toList, StatusCode := 200, StatusString := "OK".toList,
        OrderedHeaderKeys := ["A".toList, "A".toList],
        Headers := [("A".toList, "2".toList)], Unparsed := [] } none (by decide)).2.2⟩

/-- C13, counterexample: the name ` A` holds no colon, yet the single-header
recognizer returns the pair `A`, `b`: the blank before the name is skipped. -/
theorem C13_name_loses_leading_blank :
    evalHeader (" A".toList ++ ": ".toList ++ "b".toList) =
      Run.returned (some ("A".toList, "b".toList)) ∧
    evalHeader (" A".toList ++ ": ".toList ++ "b".toList) ≠
      Run.returned (some (" A".toList, "b".toList)) := by
  decide

/-- C13, amended: for a header line `N: V` with `N` free of colon and of
leading whitespace, `V` free of line terminators and of leading whitespace,
and no carriage return before a line feed in it, the single-header
recognizer returns the pair `N`, `V`; with a non-empty `V` that does not end
in a carriage return and a line terminator behind it the header block has
the one key `N` and the one entry `N`, `V`. -/
theorem C13_header_pair (name value : List Char)
    (hcolon : ∀ y ∈ name, y ≠ ':') (hlead : leadsWithWhitespace name = false)
    (hnl : ∀ y ∈ value, y ≠ '\n') (hvw : leadsWithWhitespace value = false)
    (hcr : hasCRLF (name ++ ':' :: ' ' :: value) = false) :
    evalHeader (name ++ ':' :: ' ' :: value) = Run.returned (some (name, value)) ∧
    (value ≠ [] → hasCRLF (name ++ ':' :: ' ' :: (value ++ ['\n'])) = false →
      evalHeaders (name ++ ':' :: ' ' :: (value ++ ['\n'])) =
        Run.returned
          ({ ProtocolVersion := [], StatusCode := 0, StatusString := [],
             OrderedHeaderKeys := [name], Headers := [(name, value)], Unparsed := [] }, none) ∧
      mapGet [(name, value)] name = value) := by
  have hw : readWhitespaces (' ' :: value) = value := by
    rw [readWhitespaces_ws ' ' _ (by decide), readWhitespaces_clean _ hvw]
  have hnl2 : ∀ y ∈ ' ' :: value, y ≠ '\n' := by
    intro y hy
    rcases List.mem_cons.mp hy with e | e
    · rw [e]; decide
    · exact hnl y e
  constructor
  · have h := headerParser_line name (' ' :: value) [] hcolon hlead hnl2 (Or.inl rfl)
    rw [List.append_nil, hw] at h
    unfold evalHeader Sentence noPanic
    rw [NewReader_of_noCRLF _ hcr]
    simp only [h, End_nil]
  · intro hne hcr2
    have hshape : ∀ h ∈ [(name, ' ' :: value)], HeaderShape h := by
      intro h hh
      simp only [List.mem_singleton] at hh
      rw [hh]
      exact ⟨hcolon, hlead, hnl2, by rw [hw]; exact hne⟩
    have e : headerLines [(name, ' ' :: value)] = name ++ ':' :: ' ' :: (value ++ ['\n']) := by
      simp [headerLines]
    have h := evalHeaders_headerLines [(name, ' ' :: value)] hshape (by rw [e]; exact hcr2)
    rw [e] at h
    rw [h]
    simp [headerNodes, hw, mapSet, mapGet]

/-- C13, witness: the header of `TestHeader`. -/
theorem C13_header_pair_witness :
    evalHeader "Content-Type: application/json".toList =
      Run.returned (some ("Content-Type".toList, "application/json".toList)) ∧
    evalHeaders "Content-Type: application/json\n".toList =
      Run.returned
        ({ ProtocolVersion := [], StatusCode := 0, StatusString := [],
           OrderedHeaderKeys := ["Content-Type".toList],
           Headers := [("Content-Type".toList, "application/json".toList)],
           Unparsed := [] }, none) :=
  ⟨(C13_header_pair "Content-Type".toList "application/json".toList
      (by decide) (by decide) (by decide) (by decide) (by decide)).1,
   ((C13_header_pair "Content-Type".toList "application/json".toList
      (by decide) (by decide) (by decide) (by decide) (by decide)).2
      (by decide) (by decide)).1⟩

/-- C14, counterexample: in the header line `A: b` the characters between
the colon and the line terminator are ` b`, and the value stored is `b`. -/
theorem C14_value_is_trimmed :
    evalHeaders ("A".toList ++ ':' :: " b".toList ++ ['\n']) =
      Run.returned
        ({ ProtocolVersion := [], StatusCode := 0, StatusString := [],
           OrderedHeaderKeys := ["A".toList],
           Headers := [("A".toList, "b".toList)], Unparsed := [] }, none) ∧
    mapGet [("A".toList, "b".toList)] "A".toList ≠ " b".toList := by
  decide

/-- C14, amended: a header line `name:value` with its line terminator (the
name free of colon, the value free of line terminators and not blank
throughout, no carriage return before a line feed) is matched with the key
`name` less its leading whitespace and the value `value` less its leading
whitespace; what is dropped in front is blanks, tabs, carriage returns and
line feeds only, so inner and trailing whitespace stay. Key casing is not
normalised: two lines with different keys give two map entries. -/
theorem C14_header_stored_less_leading_whitespace (name value : List Char)
    (hcolon : ∀ y ∈ name, y ≠ ':') (hnl : ∀ y ∈ value, y ≠ '\n')
    (hvis : readWhitespaces value ≠ [])
    (hcr : hasCRLF (name ++ ':' :: (value ++ ['\n'])) = false) :
    evalHeaders (name ++ ':' :: (value ++ ['\n'])) =
      Run.returned
        ({ ProtocolVersion := [], StatusCode := 0, StatusString := [],
           OrderedHeaderKeys := [readWhitespaces name],
           Headers := [(readWhitespaces name, readWhitespaces value)],
           Unparsed := [] }, none) ∧
    (∃ pre, name = pre ++ readWhitespaces name ∧ ∀ c ∈ pre, isWhitespace c = true) ∧
    (∃ pre, value = pre ++ readWhitespaces value ∧ ∀ c ∈ pre, isWhitespace c = true) ∧
    (∀ k1 k2 v1 v2 : List Char, HeaderShape (k1, v1) → HeaderShape (k2, v2) → k1 ≠ k2 →
      hasCRLF (headerLines [(k1, v1), (k2, v2)]) = false →
      evalHeaders (headerLines [(k1, v1), (k2, v2)]) =
        Run.returned
          ({ ProtocolVersion := [], StatusCode := 0, StatusString := [],
             OrderedHeaderKeys := [k1, k2],
             Headers := [(k1, readWhitespaces v1), (k2, readWhitespaces v2)],
             Unparsed := [] }, none)) := by
  refine ⟨evalHeaders_line name value hcolon hnl hvis hcr, readWhitespaces_split name,
    readWhitespaces_split value, ?_⟩
  intro k1 k2 v1 v2 s1 s2 hne hcr2
  have hshape : ∀ h ∈ [(k1, v1), (k2, v2)], HeaderShape h := by
    intro h hh
    simp only [List.mem_cons, List.mem_singleton, List.not_mem_nil, or_false] at hh
    rcases hh with e | e
    · rw [e]; exact s1
    · rw [e]; exact s2
  rw [evalHeaders_headerLines _ hshape hcr2]
  simp [headerNodes, mapSet, hne]

/-- C14, witness: a name behind a blank, a value with inner and trailing
blanks, and two keys that differ in case only. -/
theorem C14_header_stored_less_leading_whitespace_witness :
    evalHeaders " Date:  Mon, 23 May \n".toList =
      Run.returned
        ({ ProtocolVersion := [], StatusCode := 0, StatusString := [],
           OrderedHeaderKeys := ["Date".toList],
           Headers := [("Date".toList, "Mon, 23 May ".toList)],
           Unparsed := [] }, none) ∧
    evalHeaders "Content-Type: a\ncontent-type: b\n".toList =
      Run.returned
        ({ ProtocolVersion := [], StatusCode := 0, StatusString := [],
           OrderedHeaderKeys := ["Content-Type".toList, "content-type".toList],
           Headers := [("Content-Type".toList, "a".toList), ("content-type".toList, "b".toList)],
           Unparsed := [] }, none) :=
  ⟨(C14_header_stored_less_leading_whitespace " Date".toList "  Mon, 23 May ".toList
      (by decide) (by decide) (by decide) (by decide)).1,
   (C14_header_stored_less_leading_whitespace " Date".toList "  Mon, 23 May ".toList
      (by decide) (by decide) (by decide) (by decide)).2.2.2
      "Content-Type".toList "content-type".toList " a".toList " b".toList
      ⟨by decide, by decide, by decide, by decide⟩
      ⟨by decide, by decide, by decide, by decide⟩ (by decide) (by decide)⟩

/-- C15, counterexample: the end-to-end response with the line ending
`"\r\n"`. No carriage return is left in a token: `StatusString` is `OK`, the
header value is `close`, and the blank separator line is captured as the
empty string. -/
theorem C15_carriage_returns_are_dropped :
    Parse "HTTP/1.1 200 OK\r\nConnection: close\r\n\r\n<html></html>\r\n".toList =
      Run.returned
        ({ ProtocolVersion := "HTTP/1.1".toList, StatusCode := 200, StatusString := "OK".toList,
           OrderedHeaderKeys := ["Connection".toList],
           Headers := [("Connection".toList, "close".toList)],
           Unparsed := ["".toList, "<html></html>".toList] }, none) ∧
    "OK".toList ≠ "OK\r".toList ∧ "close".toList ≠ "close\r".toList ∧
    "\r".toList ∉ ["".toList, "<html></html>".toList] := by
  decide

/-- C15, amended: an input with the line ending `"\r\n"` is parsed as the
same input with the line ending `"\n"`: for every text without a carriage
return before a line feed, `Parse` of the text with a carriage return put
before every line feed is `Parse` of the text itself. For a status line
`HTTP/v n t`, header lines `name:value` and further lines without colon, so
ended, `StatusString` is `t` and every header value is `value`, each less
its leading whitespace and without a carriage return at the end, and the
further lines, a blank one as the empty string, are captured as they are. -/
theorem C15_crlf_parsed_as_lf (b : List Char) (hcr : hasCRLF b = false) :
    Parse (toCRLF b) = Parse b ∧
    (∀ (v : List Char) (n : Nat) (t : List Char) (hs : List (List Char × List Char))
      (ls : List (List Char)), b = responseText v n t hs ls →
      v ≠ [] → (∀ y ∈ v, y ≠ ' ') → n ≤ maxInt →
      (∀ y ∈ t, y ≠ '\n') → readWhitespaces t ≠ [] →
      (∀ h ∈ hs, HeaderShape h) →
      (∀ l ∈ ls, ∀ c ∈ l, c ≠ '\n') → (∀ l ∈ ls, ∀ c ∈ l, c ≠ ':') →
      Parse (toCRLF b) =
        Run.returned
          ({ ProtocolVersion := "HTTP/".toList ++ v, StatusCode := (n : Int),
             StatusString := readWhitespaces t,
             OrderedHeaderKeys := hs.map Prod.fst,
             Headers := (headerNodes hs).foldl (fun m h => mapSet m h.1 h.2) [],
             Unparsed := capturedLines hs ls }, none)) := by
  have he : Parse (toCRLF b) = Parse b := by
    unfold Parse
    rw [NewReader_toCRLF, NewReader_of_noCRLF b hcr]
  refine ⟨he, ?_⟩
  intro v n t hs ls hb hv hsp hn htnl htvis hshape hnl hcolon
  rw [he]
  subst hb
  exact Parse_shape v n t hs ls hv hsp hn htnl htvis hshape hnl hcolon hcr

/-- C15, witness: the end-to-end response of the specification. -/
theorem C15_crlf_parsed_as_lf_witness :
    toCRLF "HTTP/1.1 200 OK\nConnection: close\n\n<html></html>\n".toList =
      "HTTP/1.1 200 OK\r\nConnection: close\r\n\r\n<html></html>\r\n".toList ∧
    Parse (toCRLF "HTTP/1.1 200 OK\nConnection: close\n\n<html></html>\n".toList) =
      Parse "HTTP/1.1 200 OK\nConnection: close\n\n<html></html>\n".toList ∧
    Parse (toCRLF "HTTP/1.1 200 OK\nConnection: close\n\n<html></html>\n".toList) =
      Run.returned
        ({ ProtocolVersion := "HTTP/1.1".toList, StatusCode := 200, StatusString := "OK".toList,
           OrderedHeaderKeys := ["Connection".toList],
           Headers := [("Connection".toList, "close".toList)],
           Unparsed := ["".toList, "<html></html>".toList] }, none) :=
  ⟨by decide,
   (C15_crlf_parsed_as_lf "HTTP/1.1 200 OK\nConnection: close\n\n<html></html>\n".toList
      (by decide)).1,
   (C15_crlf_parsed_as_lf "HTTP/1.1 200 OK\nConnection: close\n\n<html></html>\n".toList
      (by decide)).2 "1.1".toList 200 "OK".toList [("Connection".toList, " close".toList)]
      ["".toList, "<html></html>".toList] (by decide) (by decide) (by decide) (by decide)
      (by decide) (by decide)
      (fun h hh => by
        rw [List.mem_singleton.mp hh]
        exact ⟨by decide, by decide, by decide, by decide⟩)
      (by decide) (by decide)⟩

/-- C16, counterexample: `Parse` succeeds and the version holds a tab: the
version expression `[^ ]+` shuts out the blank only. -/
theorem C16_version_with_tab :
    Parse "HTTP/1.1\tx 200 OK\n".toList =
      Run.returned
        ({ ProtocolVersion := "HTTP/1.1\tx".toList, StatusCode := 200,
           StatusString := "OK".toList,
           OrderedHeaderKeys := [], Headers := [], Unparsed := ["".toList] }, none) ∧
    '\t' ∈ "HTTP/1.1\tx".toList := by
  decide

/-- C16, amended: after a successful `Parse`, `ProtocolVersion` is `HTTP/`
followed by a non-empty run of characters other than the blank; it is not
empty, and `ToHTTP` starts with the status line. -/
theorem C16_version_shape (b : List Char) (r : ResponseData)
    (h : Parse b = Run.returned (r, none)) :
    (∃ ver, r.ProtocolVersion = "HTTP/".toList ++ ver ∧ ver ≠ [] ∧ ∀ c ∈ ver, c ≠ ' ') ∧
    r.ProtocolVersion ≠ [] ∧
    ∃ tail, ToHTTP r =
      (r.ProtocolVersion ++ ' ' :: (formatInt r.StatusCode ++ ' ' :: r.StatusString)) ++ tail := by
  obtain ⟨s, r1, hst, hr⟩ := Parse_ok_fields b r h
  obtain ⟨i1, i2, _⟩ := statusLineParser_inv (NewReader b) s r1 hst
  have hpv : r.ProtocolVersion = "HTTP/".toList ++ s.semver := by rw [hr]
  have hne : r.ProtocolVersion ≠ [] := by
    rw [hpv, httpSlash_toList]; simp
  refine ⟨⟨s.semver, hpv, i1, i2⟩, hne, ?_⟩
  rw [ToHTTP_eq_specToHTTP]
  unfold specToHTTP specLines
  simp only [hne, ne_eq, not_false_eq_true, if_true, List.singleton_append, List.cons_append]
  exact intercalate_head _ _ _

/-- C16, witness: the end-to-end response of the specification. -/
theorem C16_version_shape_witness :
    Parse "HTTP/1.1 200 OK\nConnection: close\n\n<html></html>\n".toList =
      Run.returned
        ({ ProtocolVersion := "HTTP/1.1".toList, StatusCode := 200, StatusString := "OK".toList,
           OrderedHeaderKeys := ["Connection".toList],
           Headers := [("Connection".toList, "close".toList)],
           Unparsed := ["".toList, "<html></html>".toList] }, none) ∧
    "HTTP/1.1".toList ≠ [] :=
  ⟨by decide,
   (C16_version_shape "HTTP/1.1 200 OK\nConnection: close\n\n<html></html>\n".toList
      { ProtocolVersion := "HTTP/1.1".toList, StatusCode := 200, StatusString := "OK".toList,
        OrderedHeaderKeys := ["Connection".toList],
        Headers := [("Connection".toList, "close".toList)],
        Unparsed := ["".toList, "<html></html>".toList] }
      (by decide)).2.1⟩

/-- C17: whenever `Parse` returns an error, the record it returns is the
fresh record of `NewResponseData`: the status fields at their zero values,
no ordered key, an empty map and no raw line. -/
theorem C17_failure_is_atomic (b : List Char) (r : ResponseData) (e : ReaderError)
    (h : Parse b = Run.returned (r, some e)) :
    r = NewResponseData ∧
    r.ProtocolVersion = [] ∧ r.StatusCode = 0 ∧
    r.StatusString = [] ∧ r.OrderedHeaderKeys = [] ∧
    r.Headers = [] ∧ r.Unparsed = [] := by
  rcases Parse_cases b with hp | hp | ⟨node, _, hp⟩
  · rw [hp] at h; exact absurd h (by simp)
  · rw [hp] at h
    simp only [Run.returned.injEq, Prod.mk.injEq] at h
    rw [← h.1]
    exact ⟨rfl, rfl, rfl, rfl, rfl, rfl, rfl⟩
  · rw [hp] at h
    simp at h

/-- C17, witness: a status line and two header lines match, the last line
has no terminator; the record carries nothing of them. -/
theorem C17_failure_is_atomic_witness :
    Parse "HTTP/1.1 200 OK\nA: 1\nB: 2\nfoo".toList =
      Run.returned (NewResponseData, some ReaderError.mk) ∧
    NewResponseData.OrderedHeaderKeys = [] ∧ NewResponseData.Headers = [] :=
  ⟨by decide,
   (C17_failure_is_atomic "HTTP/1.1 200 OK\nA: 1\nB: 2\nfoo".toList NewResponseData
      ReaderError.mk (by decide)).2.2.2.2.1,
   (C17_failure_is_atomic "HTTP/1.1 200 OK\nA: 1\nB: 2\nfoo".toList NewResponseData
      ReaderError.mk (by decide)).2.2.2.2.2.1⟩

/-- C18: after a successful `Parse` no key of `OrderedHeaderKeys` holds a
colon, and neither `StatusString` nor a value in `Headers` nor an entry of
`Unparsed` holds a line terminator. -/
theorem C18_token_alphabet (b : List Char) (r : ResponseData)
    (h : Parse b = Run.returned (r, none)) :
    (∀ k ∈ r.OrderedHeaderKeys, ':' ∉ k) ∧
    '\n' ∉ r.StatusString ∧
    (∀ p ∈ r.Headers, '\n' ∉ p.2) ∧
    (∀ l ∈ r.Unparsed, '\n' ∉ l) := by
  obtain ⟨s, r1, hst, hr⟩ := Parse_ok_fields b r h
  obtain ⟨_, _, i3⟩ := statusLineParser_inv (NewReader b) s r1 hst
  have hnodes := manyRun_forall headerLine
    (fun a => (∀ c ∈ a.1, c ≠ ':') ∧ ∀ c ∈ a.2, c ≠ '\n') headerLine_inv r1
  have hlines := manyRun_forall rawLine (fun a => ∀ c ∈ a, c ≠ '\n') rawLine_inv
    (manyRun headerLine r1).2
  rw [hr]
  refine ⟨?_, ?_, ?_, ?_⟩
  · intro k hk hc
    simp only [List.mem_map] at hk
    obtain ⟨a, ha, e⟩ := hk
    rw [← e] at hc
    exact (hnodes a ha).1 ':' hc rfl
  · intro hc
    exact i3 '\n' hc rfl
  · intro p hp hc
    rcases mem_foldl_mapSet _ _ p hp with e | e
    · simp at e
    · exact (hnodes p e).2 '\n' hc rfl
  · intro l hl hc
    exact hlines l hl '\n' hc rfl

/-- C18, witness: the end-to-end response of the specification. -/
theorem C18_token_alphabet_witness :
    Parse "HTTP/1.1 200 OK\nConnection: close\n\n<html></html>\n".toList =
      Run.returned
        ({ ProtocolVersion := "HTTP/1.1".toList, StatusCode := 200, StatusString := "OK".toList,
           OrderedHeaderKeys := ["Connection".toList],
           Headers := [("Connection".toList, "close".toList)],
           Unparsed := ["".toList, "<html></html>".toList] }, none) ∧
    '\n' ∉ "OK".toList ∧
    ∀ l ∈ ["".toList, "<html></html>".toList], '\n' ∉ l :=
  ⟨by decide,
   (C18_token_alphabet "HTTP/1.1 200 OK\nConnection: close\n\n<html></html>\n".toList
      { ProtocolVersion := "HTTP/1.1".toList, StatusCode := 200, StatusString := "OK".toList,
        OrderedHeaderKeys := ["Connection".toList],
        Headers := [("Connection".toList, "close".toList)],
        Unparsed := ["".toList, "<html></html>".toList] }
      (by decide)).2.1,
   (C18_token_alphabet "HTTP/1.1 200 OK\nConnection: close\n\n<html></html>\n".toList
      { ProtocolVersion := "HTTP/1.1".toList, StatusCode := 200, StatusString := "OK".toList,
        OrderedHeaderKeys := ["Connection".toList],
        Headers := [("Connection".toList, "close".toList)],
        Unparsed := ["".toList, "<html></html>".toList] }
      (by decide)).2.2.2⟩

end HttpParser
